import Mathlib

/-!
# HitBTC market-data cache: a verification development

A shallow embedding of `src/api/hitbtc.go` (package `api`) and theorems about it.

Modelling conventions.

* A Go `string` is the list of its code units (`GoString`).  `len`, slicing and
  `strings.LastIndex` work on positions in that list.
* A Go `map[string]V` is an association list with at most one entry per key
  (`GoMap V`): a read returns the entry stored under the key, a write replaces
  that entry or adds one.  A `nil` map and an empty map read alike and are
  both the empty list.
* `float64` is a type parameter `F`; `strconv.ParseFloat` is a parameter
  `ParseFloat : GoString → Option F` (`none` = it returned an error).
* The value decoded by `gabs` is a `Json` tree.
* What the network delivers to one `http.Get` is a `Response`.
* A clock reading is an `Int` (nanoseconds); `Time.Sub` saturates at the
  bounds of `time.Duration` as in package `time`.
* A run-time panic (slice bounds out of range) is an explicit outcome.
* The mutex is held for the whole of each accessor, so an accessor is one
  atomic step of the state.
-/

set_option autoImplicit false

namespace Hitbtc

/-! ## Strings -/

/-- A Go string, as the sequence of its code units. -/
abbrev GoString := List Char

/-- The largest position `i ≤ n` at which `substr` occurs in `s`, or `-1`. -/
def lastIndexFrom (s substr : GoString) : Nat → Int
  | 0 => if substr.isPrefixOf s then 0 else -1
  | n + 1 =>
    if substr.isPrefixOf (s.drop (n + 1)) then ((n + 1 : Nat) : Int)
    else lastIndexFrom s substr n

/-- Go `strings.LastIndex(s, substr)`: the index of the last instance of
`substr` in `s`, or `-1` if `substr` is not present in `s`. -/
def LastIndex (s substr : GoString) : Int :=
  lastIndexFrom s substr s.length

/-- The inner loop of `fetchRate` (lines 145-153) over the settlements that
are left, from the current values of `settlement` and `trading`.  The result is
`none` when the slice expression `pair[0:index]` panics (its bounds must
satisfy `0 ≤ index ≤ len(pair)`), else the final `(settlement, trading)`. -/
def splitLoop (pair : GoString) :
    List GoString → GoString × GoString → Option (GoString × GoString)
  | [], acc => some acc
  | s :: rest, acc =>
    let index := LastIndex pair s
    if index ≠ 0 ∧ index = (pair.length : Int) - (s.length : Int) then
      if 0 ≤ index ∧ index ≤ (pair.length : Int) then
        splitLoop pair rest (s, pair.take index.toNat)
      else none
    else splitLoop pair rest acc

/-- What the symbol split of `fetchRate` does with one symbol. -/
inductive Split where
  /-- the slice `pair[0:index]` panicked -/
  | panic
  /-- `settlement == "" || trading == ""`: the record is skipped -/
  | skip
  /-- the symbol is split -/
  | pair (trading settlement : GoString)
  deriving DecidableEq, Repr

/-- Lines 145-157 of `fetchRate`: both variables start as `""`, the loop runs
over `h.settlements`, and the record is skipped if either is still `""`. -/
def splitSymbol (settlements : List GoString) (pair : GoString) : Split :=
  match splitLoop pair settlements ([], []) with
  | none => .panic
  | some (settlement, trading) =>
    if settlement = [] ∨ trading = [] then .skip else .pair trading settlement

/-- The code `s` ends the symbol `pair` and leaves at least one leading
character of it. -/
def Matches (pair s : GoString) : Prop :=
  s <:+ pair ∧ s.length < pair.length

instance (pair s : GoString) : Decidable (Matches pair s) :=
  inferInstanceAs (Decidable (_ ∧ _))

/-! ## Maps -/

/-- A Go `map[string]V`: at most one entry per key. -/
abbrev GoMap (V : Type) := List (GoString × V)

/-- The two-result read `v, ok := m[key]`: `none` when `ok` is false. -/
def mapGet {V : Type} : GoMap V → GoString → Option V
  | [], _ => none
  | (k, v) :: m, key => if k = key then some v else mapGet m key

/-- The write `m[key] = val`. -/
def mapSet {V : Type} : GoMap V → GoString → V → GoMap V
  | [], key, val => [(key, val)]
  | (k, v) :: m, key, val =>
    if k = key then (key, val) :: m else (k, v) :: mapSet m key val

/-- The three statements `m, ok := outer[trading]; if !ok { m = make(..);
outer[trading] = m }; m[settlement] = val` (lines 169-174 and 186-191).  The
inner map is shared with the outer one, so the write lands in the outer map. -/
def mapSet2 {V : Type} (outer : GoMap (GoMap V)) (trading settlement : GoString)
    (val : V) : GoMap (GoMap V) :=
  match mapGet outer trading with
  | none => mapSet outer trading (mapSet [] settlement val)
  | some m => mapSet outer trading (mapSet m settlement val)

/-- The nested read `outer[trading][settlement]` with both `ok` checks
(lines 236-242 and 261-267). -/
def mapGet2 {V : Type} (outer : GoMap (GoMap V)) (trading settlement : GoString) :
    Option V :=
  match mapGet outer trading with
  | none => none
  | some m => mapGet m settlement

/-! ## Decoded JSON and the network -/

/-- A decoded JSON document, as held by a `gabs.Container`. -/
inductive Json where
  | null
  | bool (b : Bool)
  | number (text : GoString)
  | string (s : GoString)
  | array (items : List Json)
  | object (fields : List (GoString × Json))

/-- The member stored under `key`, when the value is an object that has one. -/
def Json.field (key : GoString) : Json → Option Json
  | .object fields => (fields.find? (fun kv => decide (kv.1 = key))).map (fun kv => kv.2)
  | _ => none

/-- The expression `v.Path(key).Data().(string)` for a key without dots:
`some s` when `ok`, i.e. when `v` is an object whose member `key` is the
string `s`; `none` when the member is absent or not a string. -/
def Json.pathString (v : Json) (key : GoString) : Option GoString :=
  match v.field key with
  | some (.string s) => some s
  | _ => none

/-- What one `http.Get` and the decoding that follows deliver. -/
inductive Response where
  /-- `http.Get` returned an error -/
  | getFailed
  /-- `ioutil.ReadAll` returned an error -/
  | readFailed
  /-- `gabs.ParseJSON` returned an error -/
  | parseFailed
  /-- `json.Children()` returned an error -/
  | noChildren
  /-- `json.Children()` returned these containers -/
  | children (vs : List Json)

/-- The errors the package returns. -/
inductive Error where
  /-- `errors.Wrapf(err, "failed to fetch %s", url)` -/
  | fetch (url : GoString)
  /-- `errors.Wrapf(err, "failed to parse json")` -/
  | parseJson
  /-- the error of `strconv.ParseFloat` on this text -/
  | parseFloat (text : GoString)
  /-- `errors.Errorf("%s/%s", trading, settlement)` -/
  | notFound (trading settlement : GoString)
  deriving DecidableEq, Repr

/-! ## Time -/

/-- The smallest `time.Duration` (an `int64` count of nanoseconds). -/
def minDuration : Int := -(2 ^ 63)

/-- The largest `time.Duration`. -/
def maxDuration : Int := 2 ^ 63 - 1

/-- Go `t.Sub(u)`: the duration `t - u`, and the minimum or maximum
duration when `t - u` does not fit a `Duration`. -/
def Time.Sub (t u : Int) : Int :=
  if t - u < minDuration then minDuration
  else if maxDuration < t - u then maxDuration
  else t - u

/-- Go `time.Second`, in nanoseconds. -/
def Second : Int := 1000000000

/-! ## The component -/

/-- The constant `HITBTC_BASE_URL`. -/
def HITBTC_BASE_URL : GoString := "https://api.hitbtc.com/api/2".toList

/-- The struct `HitbtcApiConfig` (without `ExchangeId`, which no code below reads). -/
structure HitbtcApiConfig where
  Apikey : GoString
  ApiSecret : GoString
  BaseURL : GoString
  RateCacheDuration : Int
  deriving DecidableEq, Repr

/-- The struct `HitbtcApi` (without the mutex `m`). -/
structure HitbtcApi (F : Type) where
  volumeMap : GoMap (GoMap F)
  rateMap : GoMap (GoMap F)
  rateLastUpdated : Int
  settlements : List GoString
  c : HitbtcApiConfig

/-- The struct `CurrencyPair`. -/
structure CurrencyPair where
  Trading : GoString
  Settlement : GoString
  deriving DecidableEq, Repr

/-- The method `publicApiUrl`. -/
def publicApiUrl {F : Type} (h : HitbtcApi F) (command : GoString) : GoString :=
  h.c.BaseURL ++ "/public/".toList ++ command

/-! ### fetchSettlements -/

/-- The first loop of `fetchSettlements` (lines 95-101). -/
def collectSettlements : List Json → List GoString → List GoString
  | [], settlements => settlements
  | v :: rest, settlements =>
    match v.pathString "quoteCurrency".toList with
    | none => collectSettlements rest settlements
    | some settlement => collectSettlements rest (settlements ++ [settlement])

/-- The second loop of `fetchSettlements` (lines 104-109), from the current
values of `m` and `uniq`.  A read of an absent key of `m` gives `false`. -/
def uniqLoop : List GoString → GoMap Bool × List GoString → GoMap Bool × List GoString
  | [], st => st
  | ele :: rest, (m, uniq) =>
    if !((mapGet m ele).getD false) then uniqLoop rest (mapSet m ele true, uniq ++ [ele])
    else uniqLoop rest (m, uniq)

/-- The method `fetchSettlements`: the state after it and the error it returns. -/
def fetchSettlements {F : Type} (h : HitbtcApi F) (resp : Response) :
    HitbtcApi F × Option Error :=
  let url := publicApiUrl h "symbol".toList
  match resp with
  | .getFailed => (h, some (.fetch url))
  | .readFailed => (h, some (.fetch url))
  | .parseFailed => (h, some .parseJson)
  | .noChildren => (h, some .parseJson)
  | .children pairMap =>
    let settlements := collectSettlements pairMap []
    let uniq := (uniqLoop settlements ([], [])).2
    ({ h with settlements := uniq }, none)

/-- The function `NewHitbtcApiUsingConfigFunc`; `f` is the effect of the
configuration function on `*conf`.  The error of `fetchSettlements` is dropped. -/
def NewHitbtcApiUsingConfigFunc {F : Type} (f : HitbtcApiConfig → HitbtcApiConfig)
    (resp : Response) : HitbtcApi F × Option Error :=
  let conf := f { Apikey := [], ApiSecret := [], BaseURL := HITBTC_BASE_URL,
                  RateCacheDuration := 30 * Second }
  let api : HitbtcApi F :=
    { rateMap := [], volumeMap := [], rateLastUpdated := 0, settlements := [], c := conf }
  ((fetchSettlements api resp).1, none)

/-! ### fetchRate -/

/-- How a call of `fetchRate` (or one turn of its loop) ends. -/
inductive Exit where
  /-- it returned `nil` (for one turn of the loop: the loop goes on) -/
  | ok
  /-- it returned this error -/
  | err (e : Error)
  /-- it panicked -/
  | panic
  deriving DecidableEq, Repr

section
variable {F : Type} (ParseFloat : GoString → Option F)

/-- One turn of the loop of `fetchRate` over the ticker records (lines 139-192). -/
def tickerStep (h : HitbtcApi F) (v : Json) : HitbtcApi F × Exit :=
  match v.pathString "symbol".toList with
  | none => (h, .ok)
  | some pair =>
    match splitSymbol h.settlements pair with
    | .panic => (h, .panic)
    | .skip => (h, .ok)
    | .pair trading settlement =>
      match v.pathString "last".toList with
      | none => (h, .ok)
      | some last =>
        match ParseFloat last with
        | none => (h, .err (.parseFloat last))
        | some lastf =>
          let h1 := { h with rateMap := mapSet2 h.rateMap trading settlement lastf }
          match v.pathString "volume".toList with
          | none => (h1, .ok)
          | some volume =>
            match ParseFloat volume with
            | none => (h1, .err (.parseFloat volume))
            | some volumef =>
              ({ h1 with volumeMap := mapSet2 h1.volumeMap trading settlement volumef }, .ok)

/-- The loop of `fetchRate` over the ticker records. -/
def tickerLoop : List Json → HitbtcApi F → HitbtcApi F × Exit
  | [], h => (h, .ok)
  | v :: rest, h =>
    match tickerStep ParseFloat h v with
    | (h1, .ok) => tickerLoop rest h1
    | (h1, e) => (h1, e)

/-- The method `fetchRate`: the state after it and how it ended. -/
def fetchRate (h : HitbtcApi F) (resp : Response) : HitbtcApi F × Exit :=
  let h0 := { h with rateMap := [], volumeMap := [] }
  let url := publicApiUrl h0 "ticker".toList
  match resp with
  | .getFailed => (h0, .err (.fetch url))
  | .readFailed => (h0, .err (.fetch url))
  | .parseFailed => (h0, .err .parseJson)
  | .noChildren => (h0, .err .parseJson)
  | .children rateMap => tickerLoop ParseFloat rateMap h0

/-! ### The accessors -/

/-- The result of an accessor call. -/
structure Outcome (F α : Type) where
  /-- the state after the call -/
  api : HitbtcApi F
  /-- the returned `(value, err)`, or `none` when the call panicked -/
  ret : Option (α × Option Error)
  /-- how many times the call invoked `fetchRate` -/
  fetches : Nat

/-- The block that opens `CurrencyPairs`, `Volume` and `Rate` (lines 201-208,
228-235, 253-260, the same text three times), at the clock reading `now`:
the state after it, how it ended, and the number of calls of `fetchRate`. -/
def refresh (h : HitbtcApi F) (now : Int) (resp : Response) : HitbtcApi F × Exit × Nat :=
  if Time.Sub now h.rateLastUpdated ≥ h.c.RateCacheDuration then
    match fetchRate ParseFloat h resp with
    | (h1, .ok) => ({ h1 with rateLastUpdated := now }, .ok, 1)
    | (h1, e) => (h1, e, 1)
  else (h, .ok, 0)

/-- The loop of `CurrencyPairs` over `h.rateMap` (lines 210-219), in the
stored order of the maps. -/
def listPairs (rateMap : GoMap (GoMap F)) : List CurrencyPair :=
  rateMap.flatMap (fun tm => tm.2.map (fun sv => { Trading := tm.1, Settlement := sv.1 }))

/-- The method `CurrencyPairs`. -/
def CurrencyPairs (h : HitbtcApi F) (now : Int) (resp : Response) :
    Outcome F (List CurrencyPair) :=
  match refresh ParseFloat h now resp with
  | (h1, .ok, n) => { api := h1, ret := some (listPairs h1.rateMap, none), fetches := n }
  | (h1, .err e, n) => { api := h1, ret := some ([], some e), fetches := n }
  | (h1, .panic, n) => { api := h1, ret := none, fetches := n }

/-- The method `Volume`. -/
def Volume [Zero F] (h : HitbtcApi F) (trading settlement : GoString) (now : Int)
    (resp : Response) : Outcome F F :=
  match refresh ParseFloat h now resp with
  | (h1, .ok, n) =>
    match mapGet h1.volumeMap trading with
    | none => { api := h1, ret := some (0, some (.notFound trading settlement)), fetches := n }
    | some m =>
      match mapGet m settlement with
      | none => { api := h1, ret := some (0, some (.notFound trading settlement)), fetches := n }
      | some volume => { api := h1, ret := some (volume, none), fetches := n }
  | (h1, .err e, n) => { api := h1, ret := some (0, some e), fetches := n }
  | (h1, .panic, n) => { api := h1, ret := none, fetches := n }

/-- The method `Rate`. -/
def Rate [Zero F] [One F] (h : HitbtcApi F) (trading settlement : GoString) (now : Int)
    (resp : Response) : Outcome F F :=
  if trading = settlement then { api := h, ret := some (1, none), fetches := 0 }
  else
    match refresh ParseFloat h now resp with
    | (h1, .ok, n) =>
      match mapGet h1.rateMap trading with
      | none => { api := h1, ret := some (0, some (.notFound trading settlement)), fetches := n }
      | some m =>
        match mapGet m settlement with
        | none => { api := h1, ret := some (0, some (.notFound trading settlement)), fetches := n }
        | some rate => { api := h1, ret := some (rate, none), fetches := n }
    | (h1, .err e, n) => { api := h1, ret := some (0, some e), fetches := n }
    | (h1, .panic, n) => { api := h1, ret := none, fetches := n }

end

/-! ### Callers -/

/-- What an accessor returns as its first result. -/
inductive Value (F : Type) where
  /-- the list returned by `CurrencyPairs` -/
  | pairs (ps : List CurrencyPair)
  /-- the number returned by `Volume` or `Rate` -/
  | number (x : F)

/-- A call of one of the three accessors. -/
inductive Call where
  | currencyPairs
  | volume (trading settlement : GoString)
  | rate (trading settlement : GoString)
  deriving DecidableEq, Repr

/-- The calls that go through the refresh block: all but `Rate` with
`trading == settlement`. -/
def Call.reads : Call → Prop
  | .rate trading settlement => trading ≠ settlement
  | _ => True

instance (call : Call) : Decidable call.reads := by
  cases call <;> unfold Call.reads <;> infer_instance

/-- The first result that comes with an error of the refresh block: a `nil`
list or `0`. -/
def Call.zeroValue {F : Type} [Zero F] : Call → Value F
  | .currencyPairs => .pairs []
  | .volume _ _ => .number 0
  | .rate _ _ => .number 0

/-- An outcome with its first result wrapped. -/
def Outcome.wrap {F α β : Type} (f : α → β) (o : Outcome F α) : Outcome F β :=
  { api := o.api, ret := o.ret.map (fun r => (f r.1, r.2)), fetches := o.fetches }

/-- The call `call` on the state `h`, at the clock reading `now`, when the
network would answer `resp`. -/
def invoke {F : Type} [Zero F] [One F] (ParseFloat : GoString → Option F)
    (h : HitbtcApi F) (call : Call) (now : Int) (resp : Response) : Outcome F (Value F) :=
  match call with
  | .currencyPairs => (CurrencyPairs ParseFloat h now resp).wrap Value.pairs
  | .volume trading settlement =>
    (Volume ParseFloat h trading settlement now resp).wrap Value.number
  | .rate trading settlement =>
    (Rate ParseFloat h trading settlement now resp).wrap Value.number

/-! ### The specification of settlement discovery -/

/-- The string-valued `quoteCurrency` members of the records of a catalog, in
the order of the catalog. -/
def quoteCurrencies (catalog : List Json) : List GoString :=
  catalog.filterMap (fun v => v.pathString "quoteCurrency".toList)

/-- A list with every later duplicate removed. -/
def firstSeen : List GoString → List GoString
  | [] => []
  | x :: xs => x :: (firstSeen xs).filter (fun y => decide (y ≠ x))

/-- The position of the first occurrence of `a` in `l` (the length of `l`
when there is none). -/
def firstIndex (a : GoString) : List GoString → Nat
  | [] => 0
  | x :: xs => if x = a then 0 else firstIndex a xs + 1

/-! ### Malformed records -/

/-- A record with malformed numeric text: its `symbol` is a string that the
split turns into a pair, and either its `last` is a string that does not
parse, or its `last` parses and its `volume` is a string that does not parse. -/
def Malformed {F : Type} (ParseFloat : GoString → Option F) (settlements : List GoString)
    (v : Json) : Prop :=
  ∃ pair trading settlement,
    v.pathString "symbol".toList = some pair ∧
    splitSymbol settlements pair = Split.pair trading settlement ∧
    ((∃ last, v.pathString "last".toList = some last ∧ ParseFloat last = none) ∨
     (∃ last lastf volume, v.pathString "last".toList = some last ∧
        ParseFloat last = some lastf ∧
        v.pathString "volume".toList = some volume ∧ ParseFloat volume = none))

/-! ### Well-formed maps and genuine keys -/

/-- The keys of a map, in stored order. -/
def mapKeys {V : Type} (m : GoMap V) : List GoString :=
  m.map Prod.fst

/-- The list holds at most one entry per key, as a Go map does. -/
def IsMap {V : Type} (m : GoMap V) : Prop :=
  (mapKeys m).Nodup

/-- Both levels of a two-level map hold at most one entry per key. -/
def IsMap2 {V : Type} (m : GoMap (GoMap V)) : Prop :=
  IsMap m ∧ ∀ kv ∈ m, IsMap kv.2

/-- The total number of inner entries of a two-level map. -/
def entryCount {V : Type} (m : GoMap (GoMap V)) : Nat :=
  (m.map (fun kv => kv.2.length)).sum

/-- The key `(t, s)` is a genuine split of a symbol of the snapshot: neither
part is empty, `s` is one of the settlements, and `t` followed by `s` is the
string `symbol` of some record. -/
def Genuine (settlements : List GoString) (snapshot : List Json) (t s : GoString) : Prop :=
  t ≠ [] ∧ s ≠ [] ∧ s ∈ settlements ∧
    ∃ v ∈ snapshot, v.pathString "symbol".toList = some (t ++ s)

/-- Every key of `rateMap` is a genuine split of a symbol of the snapshot, and
every key of `volumeMap` is a key of `rateMap`. -/
def CacheInv {F : Type} (settlements : List GoString) (snapshot : List Json)
    (h : HitbtcApi F) : Prop :=
  (∀ t s, mapGet2 h.rateMap t s ≠ none → Genuine settlements snapshot t s) ∧
  (∀ t s, mapGet2 h.volumeMap t s ≠ none → mapGet2 h.rateMap t s ≠ none)

/-! ### Records that store a rate -/

/-- The record `v` stores the rate `x` under `(t, s)`: its `symbol` is a string
that the split turns into `(t, s)`, and its `last` is a string that parses to `x`. -/
def StoresRate {F : Type} (ParseFloat : GoString → Option F) (settlements : List GoString)
    (v : Json) (t s : GoString) (x : F) : Prop :=
  ∃ pair last,
    v.pathString "symbol".toList = some pair ∧
    splitSymbol settlements pair = Split.pair t s ∧
    v.pathString "last".toList = some last ∧ ParseFloat last = some x

/-! ## Sample inputs

Concrete states and documents at which the theorems below are evaluated.  The
sample number type is `Int` and the sample `ParseFloat` reads a run of decimal
digits. -/

/-- The value of a run of decimal digits after the digits read so far, or
`none` at the first character that is not a digit. -/
def digitsValue : GoString → Int → Option Int
  | [], n => some n
  | c :: cs, n =>
    if 48 ≤ c.toNat ∧ c.toNat ≤ 57 then digitsValue cs (10 * n + ((c.toNat : Int) - 48))
    else none

/-- A sample `ParseFloat`: a non-empty run of decimal digits parses. -/
def sampleParseFloat : GoString → Option Int
  | [] => none
  | c :: cs => digitsValue (c :: cs) 0

/-- A ticker record with string members `symbol`, `last` and `volume`. -/
def tickerRecord (symbol last volume : String) : Json :=
  .object [("symbol".toList, .string symbol.toList), ("last".toList, .string last.toList),
           ("volume".toList, .string volume.toList)]

/-- A catalog record with the string member `quoteCurrency`. -/
def symbolRecord (quoteCurrency : String) : Json :=
  .object [("id".toList, .string ("ETH" ++ quoteCurrency).toList),
           ("quoteCurrency".toList, .string quoteCurrency.toList)]

/-- A ticker record without the member `volume`. -/
def tickerNoVolume (symbol last : String) : Json :=
  .object [("symbol".toList, .string symbol.toList), ("last".toList, .string last.toList)]

/-- The configuration that `NewHitbtcApiUsingConfigFunc` starts from. -/
def sampleConfig : HitbtcApiConfig :=
  { Apikey := [], ApiSecret := [], BaseURL := HITBTC_BASE_URL, RateCacheDuration := 30 * Second }

/-- A state as `NewHitbtcApiUsingConfigFunc` leaves it, with these settlements. -/
def sampleApi (settlements : List String) : HitbtcApi Int :=
  { volumeMap := [], rateMap := [], rateLastUpdated := 0,
    settlements := settlements.map String.toList, c := sampleConfig }

/-- A state whose cache holds the rate 7 and the volume 9 of BTC/USD,
refreshed at the clock reading `last`. -/
def cachedApi (last : Int) : HitbtcApi Int :=
  { volumeMap := [("BTC".toList, [("USD".toList, 9)])],
    rateMap := [("BTC".toList, [("USD".toList, 7)])],
    rateLastUpdated := last, settlements := ["USD".toList], c := sampleConfig }

/-! ## Lemmas about `strings.LastIndex` -/

theorem lastIndexFrom_le (s substr : GoString) (n : Nat) :
    lastIndexFrom s substr n ≤ (n : Int) := by
  induction n with
  | zero => simp only [lastIndexFrom]; split <;> simp
  | succ n ih =>
    simp only [lastIndexFrom]
    split
    · exact le_refl _
    · have : ((n : Nat) : Int) ≤ ((n + 1 : Nat) : Int) := by push_cast; omega
      exact le_trans ih this

theorem lastIndexFrom_hit (s substr : GoString) (n : Nat)
    (h : substr.isPrefixOf (s.drop n) = true) : lastIndexFrom s substr n = (n : Int) := by
  cases n with
  | zero => simp only [List.drop_zero] at h; simp [lastIndexFrom, h]
  | succ n => simp [lastIndexFrom, h]

theorem lastIndexFrom_miss (s substr : GoString) (n : Nat)
    (h : substr.isPrefixOf (s.drop n) = false) : lastIndexFrom s substr n < (n : Int) := by
  cases n with
  | zero => simp only [List.drop_zero] at h; simp [lastIndexFrom, h]
  | succ n =>
    simp only [lastIndexFrom, h]
    have := lastIndexFrom_le s substr n
    simp only [Bool.false_eq_true, if_false]
    push_cast
    omega

theorem lastIndexFrom_skip (s substr : GoString) (k d : Nat)
    (h : ∀ j, k < j → j ≤ k + d → substr.isPrefixOf (s.drop j) = false) :
    lastIndexFrom s substr (k + d) = lastIndexFrom s substr k := by
  induction d with
  | zero => rfl
  | succ d ih =>
    have h1 : substr.isPrefixOf (s.drop (k + d + 1)) = false :=
      h (k + d + 1) (by omega) (by omega)
    have h2 : lastIndexFrom s substr (k + (d + 1)) = lastIndexFrom s substr (k + d) := by
      show lastIndexFrom s substr (k + d + 1) = _
      simp [lastIndexFrom, h1]
    rw [h2]
    exact ih (fun j hj hj2 => h j hj (by omega))

theorem lastIndexFrom_none (s substr : GoString) (n : Nat)
    (h : ∀ j, j ≤ n → substr.isPrefixOf (s.drop j) = false) :
    lastIndexFrom s substr n = -1 := by
  induction n with
  | zero =>
    have h0 := h 0 (le_refl _)
    simp only [List.drop_zero] at h0
    simp [lastIndexFrom, h0]
  | succ n ih =>
    have h1 := h (n + 1) (le_refl _)
    simp only [lastIndexFrom, h1, Bool.false_eq_true, if_false]
    exact ih (fun j hj => h j (by omega))

/-- A string cannot start with a longer one. -/
theorem isPrefixOf_false_of_length (a b : GoString) (h : b.length < a.length) :
    a.isPrefixOf b = false := by
  cases hp : a.isPrefixOf b with
  | false => rfl
  | true =>
    have := (List.isPrefixOf_iff_prefix.mp hp).length_le
    omega

/-- The result of `LastIndex` for a code longer than the string is `-1`. -/
theorem LastIndex_of_longer (pair s : GoString) (h : pair.length < s.length) :
    LastIndex pair s = -1 := by
  apply lastIndexFrom_none
  intro j _
  apply isPrefixOf_false_of_length
  simp only [List.length_drop]
  omega

/-- The result of `LastIndex` is the position `len(pair) - len(s)` exactly when `s` ends `pair`
(for a code that is not longer than `pair`). -/
theorem LastIndex_eq_iff_suffix (pair s : GoString) (h : s.length ≤ pair.length) :
    LastIndex pair s = (pair.length : Int) - (s.length : Int) ↔ s <:+ pair := by
  have hskip : LastIndex pair s = lastIndexFrom pair s (pair.length - s.length) := by
    have hlen : pair.length = (pair.length - s.length) + s.length := by omega
    have key := lastIndexFrom_skip pair s (pair.length - s.length) s.length (by
      intro j hj1 hj2
      apply isPrefixOf_false_of_length
      simp only [List.length_drop]
      omega)
    rw [← hlen] at key
    exact key
  have hcast : ((pair.length - s.length : Nat) : Int) = (pair.length : Int) - (s.length : Int) := by
    omega
  rw [hskip, ← hcast]
  constructor
  · intro heq
    cases hp : s.isPrefixOf (pair.drop (pair.length - s.length)) with
    | false =>
      have := lastIndexFrom_miss pair s _ hp
      omega
    | true =>
      have hpre := List.isPrefixOf_iff_prefix.mp hp
      have hlen : (pair.drop (pair.length - s.length)).length = s.length := by
        simp only [List.length_drop]; omega
      have heq2 : s = pair.drop (pair.length - s.length) :=
        hpre.eq_of_length hlen.symm
      rw [heq2]
      exact List.drop_suffix _ _
  · intro hsuf
    apply lastIndexFrom_hit
    obtain ⟨t, ht⟩ := hsuf
    have : pair.drop (pair.length - s.length) = s := by
      subst ht
      simp
    rw [this]
    exact List.isPrefixOf_iff_prefix.mpr (List.prefix_refl s)

/-! ## The symbol split -/

/-- The test of line 149 holds for a code that matches, and for a code that is
one character longer than the symbol (then `LastIndex` is `-1`). -/
theorem line149_iff (pair s : GoString) :
    (LastIndex pair s ≠ 0 ∧ LastIndex pair s = (pair.length : Int) - (s.length : Int)) ↔
      (Matches pair s ∨ s.length = pair.length + 1) := by
  by_cases hle : s.length ≤ pair.length
  · have hiff := LastIndex_eq_iff_suffix pair s hle
    unfold Matches
    constructor
    · rintro ⟨h0, heq⟩
      left
      refine ⟨hiff.mp heq, ?_⟩
      rw [heq] at h0
      omega
    · rintro (⟨hs, hlt⟩ | hbad)
      · have heq := hiff.mpr hs
        refine ⟨?_, heq⟩
        rw [heq]
        omega
      · omega
  · have hm1 := LastIndex_of_longer pair s (by omega)
    rw [hm1]
    unfold Matches
    constructor
    · rintro ⟨_, heq⟩
      right
      omega
    · rintro (⟨hs, _⟩ | hbad)
      · have := hs.length_le
        omega
      · refine ⟨by decide, ?_⟩
        omega

/-- One turn of the inner loop, by cases on the code. -/
theorem splitLoop_cons (pair s : GoString) (rest : List GoString) (acc : GoString × GoString) :
    splitLoop pair (s :: rest) acc =
      if s.length = pair.length + 1 then none
      else if Matches pair s then
        splitLoop pair rest (s, pair.take (pair.length - s.length))
      else splitLoop pair rest acc := by
  have h149 := line149_iff pair s
  by_cases hbad : s.length = pair.length + 1
  · have hc : LastIndex pair s ≠ 0 ∧
        LastIndex pair s = (pair.length : Int) - (s.length : Int) := h149.mpr (Or.inr hbad)
    have hneg : ¬ (0 ≤ LastIndex pair s ∧ LastIndex pair s ≤ (pair.length : Int)) := by
      rw [hc.2]; omega
    simp only [splitLoop, hc, hneg, hbad, if_true, if_false, and_self, ne_eq, not_false_eq_true]
    simp
  · by_cases hm : Matches pair s
    · have hc : LastIndex pair s ≠ 0 ∧
          LastIndex pair s = (pair.length : Int) - (s.length : Int) := h149.mpr (Or.inl hm)
      have hlt := hm.2
      have hpos : 0 ≤ LastIndex pair s ∧ LastIndex pair s ≤ (pair.length : Int) := by
        rw [hc.2]; omega
      have hnat : (LastIndex pair s).toNat = pair.length - s.length := by
        rw [hc.2]; omega
      simp only [splitLoop, hbad, hm, if_true, if_false]
      rw [if_pos hc, if_pos hpos, hnat]
    · have hc : ¬ (LastIndex pair s ≠ 0 ∧
          LastIndex pair s = (pair.length : Int) - (s.length : Int)) := by
        intro hc
        rcases h149.mp hc with h | h
        · exact hm h
        · exact hbad h
      simp only [splitLoop, hbad, hm, if_false]
      rw [if_neg hc]

/-- The inner loop panics exactly when some code is one character longer than
the symbol. -/
theorem splitLoop_eq_none_iff (pair : GoString) (S : List GoString) (acc : GoString × GoString) :
    splitLoop pair S acc = none ↔ ∃ s ∈ S, s.length = pair.length + 1 := by
  induction S generalizing acc with
  | nil => simp [splitLoop]
  | cons s rest ih =>
    rw [splitLoop_cons]
    by_cases hbad : s.length = pair.length + 1
    · simp [hbad]
    · by_cases hm : Matches pair s
      · simp only [hbad, hm, if_true, if_false, List.mem_cons, exists_eq_or_imp, false_or]
        exact ih _
      · simp only [hbad, hm, if_false, List.mem_cons, exists_eq_or_imp, false_or]
        exact ih _

/-- Without a matching code and without a panic the loop leaves its variables alone. -/
theorem splitLoop_no_match (pair : GoString) (S : List GoString) (acc : GoString × GoString)
    (hno : ∀ s ∈ S, ¬ Matches pair s) (hlen : ∀ s ∈ S, s.length ≠ pair.length + 1) :
    splitLoop pair S acc = some acc := by
  induction S generalizing acc with
  | nil => rfl
  | cons s rest ih =>
    rw [splitLoop_cons]
    have h1 := hlen s (List.mem_cons_self _ _)
    have h2 := hno s (List.mem_cons_self _ _)
    simp only [h1, h2, if_false]
    exact ih acc (fun x hx => hno x (List.mem_cons_of_mem _ hx))
      (fun x hx => hlen x (List.mem_cons_of_mem _ hx))

/-- The loop ends with the last matching code of the list. -/
theorem splitLoop_last_match (pair s : GoString) (pre post : List GoString)
    (acc : GoString × GoString) (hs : Matches pair s)
    (hpost : ∀ x ∈ post, ¬ Matches pair x)
    (hlen : ∀ x ∈ pre ++ s :: post, x.length ≠ pair.length + 1) :
    splitLoop pair (pre ++ s :: post) acc = some (s, pair.take (pair.length - s.length)) := by
  induction pre generalizing acc with
  | nil =>
    simp only [List.nil_append] at hlen ⊢
    rw [splitLoop_cons]
    have h1 := hlen s (List.mem_cons_self _ _)
    simp only [h1, hs, if_true, if_false]
    exact splitLoop_no_match pair post _ hpost
      (fun x hx => hlen x (List.mem_cons_of_mem _ hx))
  | cons p pre ih =>
    simp only [List.cons_append] at hlen ⊢
    rw [splitLoop_cons]
    have h1 := hlen p (List.mem_cons_self _ _)
    have hrest : ∀ x ∈ pre ++ s :: post, x.length ≠ pair.length + 1 :=
      fun x hx => hlen x (List.mem_cons_of_mem _ hx)
    simp only [h1, if_false]
    split
    · exact ih _ hrest
    · exact ih _ hrest

/-- In a list with an element that has `P`, there is a last such element. -/
theorem exists_last_of_exists {α : Type} (P : α → Prop) (S : List α) (h : ∃ s ∈ S, P s) :
    ∃ pre s post, S = pre ++ s :: post ∧ P s ∧ ∀ x ∈ post, ¬ P x := by
  induction S with
  | nil => simp at h
  | cons a rest ih =>
    by_cases hr : ∃ s ∈ rest, P s
    · obtain ⟨pre, s, post, hS, hs, hpost⟩ := ih hr
      exact ⟨a :: pre, s, post, by simp [hS], hs, hpost⟩
    · obtain ⟨s, hsmem, hs⟩ := h
      rcases List.mem_cons.mp hsmem with rfl | hmem
      · refine ⟨[], s, rest, rfl, hs, ?_⟩
        intro x hx hPx
        exact hr ⟨x, hx, hPx⟩
      · exact absurd ⟨s, hmem, hs⟩ hr

/-- C1 (code bug).  The claim says that a symbol no settlement code matches is
skipped and that the split completes normally.  At the symbol "BTC" with the
settlements ["USDT"], and at the symbol "" with the settlements ["A"], no code
matches, and the slice `pair[0:index]` is taken with `index = -1`: the split
panics, and so does `fetchRate` on a ticker that holds the record.  (At "USD"
with ["USD","BTC"] the record is skipped, as claimed.) -/
theorem C1_unmatched_symbol_panics :
    (∀ s ∈ ["USDT".toList], ¬ Matches "BTC".toList s) ∧
    LastIndex "BTC".toList "USDT".toList = -1 ∧
    splitSymbol ["USDT".toList] "BTC".toList = Split.panic ∧
    (∀ s ∈ ["A".toList], ¬ Matches [] s) ∧
    splitSymbol ["A".toList] [] = Split.panic ∧
    splitSymbol ["USD".toList, "BTC".toList] "USD".toList = Split.skip ∧
    (fetchRate sampleParseFloat (sampleApi ["USDT"])
      (.children [tickerRecord "BTC" "1" "2"])).2 = Exit.panic := by
  refine ⟨by decide, by decide, by decide, by decide, by decide, by decide, by decide⟩

/-- C2.  When every settlement code is non-empty and no longer than the symbol
and some code matches (it ends the symbol and is not the whole symbol), the
split yields the last matching code of the list as the settlement and the
symbol without that suffix as the trading currency. -/
theorem C2_last_match_wins (pair : GoString) (S : List GoString)
    (hcodes : ∀ s ∈ S, s ≠ [] ∧ s.length ≤ pair.length)
    (hex : ∃ s ∈ S, Matches pair s) :
    ∃ pre s post trading, S = pre ++ s :: post ∧ Matches pair s ∧
      (∀ x ∈ post, ¬ Matches pair x) ∧ trading ++ s = pair ∧
      splitSymbol S pair = Split.pair trading s := by
  obtain ⟨pre, s, post, hS, hs, hpost⟩ := exists_last_of_exists (Matches pair) S hex
  have hlen : ∀ x ∈ pre ++ s :: post, x.length ≠ pair.length + 1 := by
    intro x hx
    have := (hcodes x (hS ▸ hx)).2
    omega
  have hsmem : s ∈ S := by rw [hS]; simp
  have hsne : s ≠ [] := (hcodes s hsmem).1
  obtain ⟨t, ht⟩ := hs.1
  have htake : pair.take (pair.length - s.length) = t := by
    subst ht
    simp
  have htne : t ≠ [] := by
    intro h0
    have := hs.2
    subst ht
    subst h0
    simp at this
  refine ⟨pre, s, post, t, hS, hs, hpost, ht, ?_⟩
  unfold splitSymbol
  rw [hS, splitLoop_last_match pair s pre post _ hs hpost hlen, htake]
  simp [hsne, htne]

/-- C2 at the settlements ["SD","USD"] and the symbol "BTCUSD". -/
theorem C2_last_match_wins_witness :
    (∀ s ∈ ["SD".toList, "USD".toList], s ≠ [] ∧ s.length ≤ "BTCUSD".toList.length) ∧
    (∃ s ∈ ["SD".toList, "USD".toList], Matches "BTCUSD".toList s) ∧
    (∃ pre s post trading, ["SD".toList, "USD".toList] = pre ++ s :: post ∧
      Matches "BTCUSD".toList s ∧ (∀ x ∈ post, ¬ Matches "BTCUSD".toList x) ∧
      trading ++ s = "BTCUSD".toList ∧
      splitSymbol ["SD".toList, "USD".toList] "BTCUSD".toList = Split.pair trading s) :=
  ⟨by decide, by decide,
    C2_last_match_wins "BTCUSD".toList ["SD".toList, "USD".toList] (by decide) (by decide)⟩

/-- The two examples of the claim C2: the later code of the list wins, in
either order of the list. -/
theorem split_examples :
    splitSymbol ["SD".toList, "USD".toList] "BTCUSD".toList
      = Split.pair "BTC".toList "USD".toList ∧
    splitSymbol ["USD".toList, "SD".toList] "BTCUSD".toList
      = Split.pair "BTCU".toList "SD".toList := by
  refine ⟨by decide, by decide⟩

/-! ## What `fetchRate` leaves alone -/

section
variable {F : Type} (ParseFloat : GoString → Option F)

/-- One turn of the ticker loop changes only the two maps. -/
theorem tickerStep_frame (h : HitbtcApi F) (v : Json) :
    (tickerStep ParseFloat h v).1.rateLastUpdated = h.rateLastUpdated ∧
    (tickerStep ParseFloat h v).1.settlements = h.settlements ∧
    (tickerStep ParseFloat h v).1.c = h.c := by
  unfold tickerStep
  repeat' split
  all_goals exact ⟨rfl, rfl, rfl⟩

/-- The ticker loop changes only the two maps. -/
theorem tickerLoop_frame (vs : List Json) (h : HitbtcApi F) :
    (tickerLoop ParseFloat vs h).1.rateLastUpdated = h.rateLastUpdated ∧
    (tickerLoop ParseFloat vs h).1.settlements = h.settlements ∧
    (tickerLoop ParseFloat vs h).1.c = h.c := by
  induction vs generalizing h with
  | nil => exact ⟨rfl, rfl, rfl⟩
  | cons v rest ih =>
    have hstep := tickerStep_frame ParseFloat h v
    unfold tickerLoop
    split
    · rename_i h1 heq
      rw [heq] at hstep
      obtain ⟨a, b, c⟩ := ih h1
      exact ⟨a.trans hstep.1, b.trans hstep.2.1, c.trans hstep.2.2⟩
    · rename_i h1 e _ heq
      rw [heq] at hstep
      exact hstep

/-- The method `fetchRate` changes only the two maps. -/
theorem fetchRate_frame (h : HitbtcApi F) (resp : Response) :
    (fetchRate ParseFloat h resp).1.rateLastUpdated = h.rateLastUpdated ∧
    (fetchRate ParseFloat h resp).1.settlements = h.settlements ∧
    (fetchRate ParseFloat h resp).1.c = h.c := by
  unfold fetchRate
  cases resp with
  | children vs => exact tickerLoop_frame ParseFloat vs _
  | _ => exact ⟨rfl, rfl, rfl⟩

/-- The refresh block when the cache has not expired. -/
theorem refresh_fresh (h : HitbtcApi F) (now : Int) (resp : Response)
    (hfresh : ¬ Time.Sub now h.rateLastUpdated ≥ h.c.RateCacheDuration) :
    refresh ParseFloat h now resp = (h, Exit.ok, 0) := by
  unfold refresh
  rw [if_neg hfresh]

/-- The refresh block when the cache has expired and `fetchRate` returns `nil`. -/
theorem refresh_ok (h : HitbtcApi F) (now : Int) (resp : Response)
    (hexp : Time.Sub now h.rateLastUpdated ≥ h.c.RateCacheDuration)
    (hok : (fetchRate ParseFloat h resp).2 = Exit.ok) :
    refresh ParseFloat h now resp =
      ({ (fetchRate ParseFloat h resp).1 with rateLastUpdated := now }, Exit.ok, 1) := by
  unfold refresh
  rw [if_pos hexp]
  cases hf : fetchRate ParseFloat h resp with
  | mk h1 e =>
    rw [hf] at hok
    simp only at hok
    subst hok
    rfl

/-- The refresh block when the cache has expired and `fetchRate` does not return `nil`. -/
theorem refresh_fail (h : HitbtcApi F) (now : Int) (resp : Response)
    (hexp : Time.Sub now h.rateLastUpdated ≥ h.c.RateCacheDuration)
    (hfail : (fetchRate ParseFloat h resp).2 ≠ Exit.ok) :
    refresh ParseFloat h now resp =
      ((fetchRate ParseFloat h resp).1, (fetchRate ParseFloat h resp).2, 1) := by
  unfold refresh
  rw [if_pos hexp]
  cases hf : fetchRate ParseFloat h resp with
  | mk h1 e =>
    rw [hf] at hfail
    simp only at hfail
    cases e with
    | ok => exact absurd rfl hfail
    | err e => rfl
    | panic => rfl

/-- The refresh block calls `fetchRate` once if the cache has expired, else not at all. -/
theorem refresh_fetches (h : HitbtcApi F) (now : Int) (resp : Response) :
    (refresh ParseFloat h now resp).2.2 =
      if Time.Sub now h.rateLastUpdated ≥ h.c.RateCacheDuration then 1 else 0 := by
  by_cases hexp : Time.Sub now h.rateLastUpdated ≥ h.c.RateCacheDuration
  · rw [if_pos hexp]
    by_cases hok : (fetchRate ParseFloat h resp).2 = Exit.ok
    · rw [refresh_ok ParseFloat h now resp hexp hok]
    · rw [refresh_fail ParseFloat h now resp hexp hok]
  · rw [if_neg hexp, refresh_fresh ParseFloat h now resp hexp]

/-- A call that goes through the refresh block, in terms of that block. -/
theorem invoke_of_reads [Zero F] [One F] (h : HitbtcApi F) (call : Call) (hr : call.reads)
    (now : Int) (resp : Response) :
    (invoke ParseFloat h call now resp).api = (refresh ParseFloat h now resp).1 ∧
    (invoke ParseFloat h call now resp).fetches = (refresh ParseFloat h now resp).2.2 ∧
    (∀ e, (refresh ParseFloat h now resp).2.1 = Exit.err e →
      (invoke ParseFloat h call now resp).ret = some (call.zeroValue, some e)) ∧
    ((refresh ParseFloat h now resp).2.1 = Exit.panic →
      (invoke ParseFloat h call now resp).ret = none) := by
  rcases hrf : refresh ParseFloat h now resp with ⟨h1, e, n⟩
  cases call with
  | currencyPairs =>
    cases e <;> simp [invoke, CurrencyPairs, hrf, Outcome.wrap, Call.zeroValue]
  | volume t s =>
    cases e with
    | ok =>
      simp only [invoke, Volume, hrf, Outcome.wrap]
      repeat' split
      all_goals simp
    | err e => simp [invoke, Volume, hrf, Outcome.wrap, Call.zeroValue]
    | panic => simp [invoke, Volume, hrf, Outcome.wrap, Call.zeroValue]
  | rate t s =>
    have hne : t ≠ s := hr
    cases e with
    | ok =>
      simp only [invoke, Rate, hrf, Outcome.wrap, if_neg hne]
      repeat' split
      all_goals simp
    | err e => simp [invoke, Rate, hrf, Outcome.wrap, Call.zeroValue, if_neg hne]
    | panic => simp [invoke, Rate, hrf, Outcome.wrap, Call.zeroValue, if_neg hne]

end

/-! ## The cache controller -/

/-- The duration `Time.Sub t u` grows with `t`. -/
theorem Time.Sub_mono (t t' u : Int) (h : t ≤ t') : Time.Sub t u ≤ Time.Sub t' u := by
  unfold Time.Sub minDuration maxDuration
  split_ifs <;> omega

/-- The duration `Time.Sub t u` is `t - u` when that fits a `Duration`. -/
theorem Time.Sub_eq (t u : Int) (h1 : minDuration ≤ t - u) (h2 : t - u ≤ maxDuration) :
    Time.Sub t u = t - u := by
  unfold Time.Sub
  rw [if_neg (by omega), if_neg (by omega)]

/-- C3 (code bug).  The claim says that a failed refresh leaves `rateMap` and
`volumeMap` as they were.  `fetchRate` replaces both by empty maps before it
fetches, and writes into them while it reads the ticker: from a cache that
holds BTC/USD, a call that meets a transport error ends with both maps empty,
and a call that meets a number that does not parse in the second record ends
with the rate and volume of the first record in the maps. -/
theorem C3_failed_refresh_resets_cache :
    (cachedApi 0).rateMap = [("BTC".toList, [("USD".toList, 7)])] ∧
    (cachedApi 0).volumeMap = [("BTC".toList, [("USD".toList, 9)])] ∧
    (Volume sampleParseFloat (cachedApi 0) "BTC".toList "USD".toList (31 * Second)
      Response.getFailed).ret
        = some (0, some (Error.fetch (HITBTC_BASE_URL ++ "/public/ticker".toList))) ∧
    (Volume sampleParseFloat (cachedApi 0) "BTC".toList "USD".toList (31 * Second)
      Response.getFailed).api.rateMap = [] ∧
    (Volume sampleParseFloat (cachedApi 0) "BTC".toList "USD".toList (31 * Second)
      Response.getFailed).api.volumeMap = [] ∧
    (CurrencyPairs sampleParseFloat (cachedApi 0) (31 * Second)
      (Response.children [tickerRecord "ETHUSD" "3" "4", tickerRecord "LTCUSD" "x" "5"])).ret
        = some ([], some (Error.parseFloat "x".toList)) ∧
    (CurrencyPairs sampleParseFloat (cachedApi 0) (31 * Second)
      (Response.children [tickerRecord "ETHUSD" "3" "4", tickerRecord "LTCUSD" "x" "5"])).api.rateMap
        = [("ETH".toList, [("USD".toList, 3)])] ∧
    (CurrencyPairs sampleParseFloat (cachedApi 0) (31 * Second)
      (Response.children [tickerRecord "ETHUSD" "3" "4", tickerRecord "LTCUSD" "x" "5"])).api.volumeMap
        = [("ETH".toList, [("USD".toList, 4)])] := by
  refine ⟨by decide, by decide, by decide, by decide, by decide, by decide, by decide, by decide⟩

section
variable {F : Type} [Zero F] [One F] (ParseFloat : GoString → Option F)

/-- C4.  When a call of `CurrencyPairs`, `Volume` or `Rate` (with
`trading != settlement`) finds the cache expired and `fetchRate` returns an
error, the call returns that error with a `nil` list or `0`, it has invoked
`fetchRate` once, `rateLastUpdated` is unchanged, and every later such call at a
clock reading that is not earlier invokes `fetchRate` again. -/
theorem C4_failed_refresh_propagates (h : HitbtcApi F) (call : Call) (hr : call.reads)
    (now : Int) (resp : Response) (e : Error)
    (hexp : Time.Sub now h.rateLastUpdated ≥ h.c.RateCacheDuration)
    (hfail : (fetchRate ParseFloat h resp).2 = Exit.err e) :
    (invoke ParseFloat h call now resp).ret = some (call.zeroValue, some e) ∧
    (invoke ParseFloat h call now resp).fetches = 1 ∧
    (invoke ParseFloat h call now resp).api.rateLastUpdated = h.rateLastUpdated ∧
    ∀ (call2 : Call) (now2 : Int) (resp2 : Response), call2.reads → now ≤ now2 →
      Time.Sub now2 (invoke ParseFloat h call now resp).api.rateLastUpdated
        ≥ (invoke ParseFloat h call now resp).api.c.RateCacheDuration ∧
      (invoke ParseFloat (invoke ParseFloat h call now resp).api call2 now2 resp2).fetches = 1 := by
  have hne : (fetchRate ParseFloat h resp).2 ≠ Exit.ok := by rw [hfail]; exact fun hc => by cases hc
  have hrf := refresh_fail ParseFloat h now resp hexp hne
  obtain ⟨hapi, hfetch, herr, _⟩ := invoke_of_reads ParseFloat h call hr now resp
  rw [hrf] at hapi hfetch herr
  simp only at hapi hfetch herr
  obtain ⟨hlast, _, hc⟩ := fetchRate_frame ParseFloat h resp
  refine ⟨herr e hfail, hfetch, by rw [hapi, hlast], ?_⟩
  intro call2 now2 resp2 hr2 hle
  have hexp2 : Time.Sub now2 (invoke ParseFloat h call now resp).api.rateLastUpdated
      ≥ (invoke ParseFloat h call now resp).api.c.RateCacheDuration := by
    rw [hapi, hlast, hc]
    exact le_trans hexp (Time.Sub_mono now now2 _ hle)
  refine ⟨hexp2, ?_⟩
  rw [(invoke_of_reads ParseFloat _ call2 hr2 now2 resp2).2.1, refresh_fetches, if_pos hexp2]

/-- C5.  A call of `CurrencyPairs`, `Volume` or `Rate` (with
`trading != settlement`) at the clock reading `now` invokes `fetchRate` once
if `now.Sub(rateLastUpdated) >= RateCacheDuration` and not at all otherwise,
and after a fetch that returned `nil` `rateLastUpdated` is that `now`.  With a
`RateCacheDuration` of 30 seconds, a state that has expired at `t0` and
fetches that return `nil`, calls at `t0`, `t0 + 10s` and `t0 + 35s` invoke
`fetchRate` at the first and the third call only. -/
theorem C5_ttl_refresh_decision :
    (∀ (h : HitbtcApi F) (call : Call) (now : Int) (resp : Response), call.reads →
      (invoke ParseFloat h call now resp).fetches
        = (if Time.Sub now h.rateLastUpdated ≥ h.c.RateCacheDuration then 1 else 0) ∧
      (Time.Sub now h.rateLastUpdated ≥ h.c.RateCacheDuration →
        (fetchRate ParseFloat h resp).2 = Exit.ok →
        (invoke ParseFloat h call now resp).api.rateLastUpdated = now)) ∧
    (∀ (h : HitbtcApi F) (c1 c2 c3 : Call) (t0 : Int) (r1 r2 r3 : Response),
      c1.reads → c2.reads → c3.reads →
      h.c.RateCacheDuration = 30 * Second →
      Time.Sub t0 h.rateLastUpdated ≥ 30 * Second →
      (fetchRate ParseFloat h r1).2 = Exit.ok →
      (fetchRate ParseFloat
        (invoke ParseFloat (invoke ParseFloat h c1 t0 r1).api c2 (t0 + 10 * Second) r2).api
        r3).2 = Exit.ok →
      (invoke ParseFloat h c1 t0 r1).fetches = 1 ∧
      (invoke ParseFloat (invoke ParseFloat h c1 t0 r1).api c2 (t0 + 10 * Second) r2).fetches = 0 ∧
      (invoke ParseFloat
        (invoke ParseFloat (invoke ParseFloat h c1 t0 r1).api c2 (t0 + 10 * Second) r2).api
        c3 (t0 + 35 * Second) r3).fetches = 1 ∧
      (invoke ParseFloat
        (invoke ParseFloat (invoke ParseFloat h c1 t0 r1).api c2 (t0 + 10 * Second) r2).api
        c3 (t0 + 35 * Second) r3).api.rateLastUpdated = t0 + 35 * Second) := by
  have general : ∀ (h : HitbtcApi F) (call : Call) (now : Int) (resp : Response), call.reads →
      (invoke ParseFloat h call now resp).fetches
        = (if Time.Sub now h.rateLastUpdated ≥ h.c.RateCacheDuration then 1 else 0) ∧
      (Time.Sub now h.rateLastUpdated ≥ h.c.RateCacheDuration →
        (fetchRate ParseFloat h resp).2 = Exit.ok →
        (invoke ParseFloat h call now resp).api.rateLastUpdated = now) := by
    intro h call now resp hr
    obtain ⟨hapi, hfetch, _, _⟩ := invoke_of_reads ParseFloat h call hr now resp
    refine ⟨by rw [hfetch, refresh_fetches], ?_⟩
    intro hexp hok
    rw [hapi, refresh_ok ParseFloat h now resp hexp hok]
  refine ⟨general, ?_⟩
  intro h c1 c2 c3 t0 r1 r2 r3 hr1 hr2 hr3 hD hexp hok1 hok3
  have hexp1 : Time.Sub t0 h.rateLastUpdated ≥ h.c.RateCacheDuration := by rw [hD]; exact hexp
  -- the first call
  obtain ⟨hapi1, _, _, _⟩ := invoke_of_reads ParseFloat h c1 hr1 t0 r1
  rw [refresh_ok ParseFloat h t0 r1 hexp1 hok1] at hapi1
  simp only at hapi1
  have hlast1 : (invoke ParseFloat h c1 t0 r1).api.rateLastUpdated = t0 := by rw [hapi1]
  have hc1 : (invoke ParseFloat h c1 t0 r1).api.c = h.c := by
    rw [hapi1]; exact (fetchRate_frame ParseFloat h r1).2.2
  -- the second call
  have hsub2 : Time.Sub (t0 + 10 * Second) t0 = 10 * Second := by
    rw [Time.Sub_eq] <;> simp only [minDuration, maxDuration, Second] <;> omega
  have hfresh2 : ¬ Time.Sub (t0 + 10 * Second) (invoke ParseFloat h c1 t0 r1).api.rateLastUpdated
      ≥ (invoke ParseFloat h c1 t0 r1).api.c.RateCacheDuration := by
    rw [hlast1, hc1, hD, hsub2]; unfold Second; omega
  obtain ⟨hapi2, _, _, _⟩ :=
    invoke_of_reads ParseFloat (invoke ParseFloat h c1 t0 r1).api c2 hr2 (t0 + 10 * Second) r2
  rw [refresh_fresh ParseFloat _ _ r2 hfresh2] at hapi2
  simp only at hapi2
  -- the third call
  have hsub3 : Time.Sub (t0 + 35 * Second) t0 = 35 * Second := by
    rw [Time.Sub_eq] <;> simp only [minDuration, maxDuration, Second] <;> omega
  have hexp3 : Time.Sub (t0 + 35 * Second)
      (invoke ParseFloat (invoke ParseFloat h c1 t0 r1).api c2 (t0 + 10 * Second) r2).api.rateLastUpdated
      ≥ (invoke ParseFloat (invoke ParseFloat h c1 t0 r1).api c2 (t0 + 10 * Second)
          r2).api.c.RateCacheDuration := by
    rw [hapi2, hlast1, hc1, hD, hsub3]; unfold Second; omega
  refine ⟨?_, ?_, ?_, ?_⟩
  · rw [(general h c1 t0 r1 hr1).1, if_pos hexp1]
  · rw [(general _ c2 _ r2 hr2).1, if_neg hfresh2]
  · rw [(general _ c3 _ r3 hr3).1, if_pos hexp3]
  · exact (general _ c3 _ r3 hr3).2 hexp3 hok3

/-- C6.  `Rate(x, x)` returns 1 with a `nil` error, does not invoke
`fetchRate` and leaves the state as it was, in every state, the freshly
constructed one included. -/
theorem C6_identity_rate (h : HitbtcApi F) (x : GoString) (now : Int) (resp : Response) :
    (Rate ParseFloat h x x now resp).ret = some (1, none) ∧
    (Rate ParseFloat h x x now resp).fetches = 0 ∧
    (Rate ParseFloat h x x now resp).api = h ∧
    (Rate ParseFloat h x x now resp).api.rateMap = h.rateMap ∧
    (Rate ParseFloat h x x now resp).api.volumeMap = h.volumeMap ∧
    (Rate ParseFloat h x x now resp).api.rateLastUpdated = h.rateLastUpdated ∧
    (∀ (f : HitbtcApiConfig → HitbtcApiConfig) (resp0 : Response),
      Rate ParseFloat (NewHitbtcApiUsingConfigFunc f resp0).1 x x now resp
        = { api := (NewHitbtcApiUsingConfigFunc f resp0).1, ret := some (1, none), fetches := 0 }) := by
  simp [Rate]

end

/-- C4 at a cache that holds BTC/USD and was refreshed at 0: `Volume` at 31s
meets a transport error. -/
theorem C4_failed_refresh_propagates_witness :
    (Call.volume "BTC".toList "USD".toList).reads ∧
    Time.Sub (31 * Second) (cachedApi 0).rateLastUpdated ≥ (cachedApi 0).c.RateCacheDuration ∧
    (fetchRate sampleParseFloat (cachedApi 0) Response.getFailed).2
      = Exit.err (Error.fetch (HITBTC_BASE_URL ++ "/public/ticker".toList)) ∧
    (invoke sampleParseFloat (cachedApi 0) (Call.volume "BTC".toList "USD".toList)
      (31 * Second) Response.getFailed).ret
      = some (Value.number 0, some (Error.fetch (HITBTC_BASE_URL ++ "/public/ticker".toList))) ∧
    (invoke sampleParseFloat (cachedApi 0) (Call.volume "BTC".toList "USD".toList)
      (31 * Second) Response.getFailed).fetches = 1 ∧
    (invoke sampleParseFloat (cachedApi 0) (Call.volume "BTC".toList "USD".toList)
      (31 * Second) Response.getFailed).api.rateLastUpdated = 0 :=
  have key := C4_failed_refresh_propagates sampleParseFloat (cachedApi 0)
    (Call.volume "BTC".toList "USD".toList) (by decide) (31 * Second) Response.getFailed
    (Error.fetch (HITBTC_BASE_URL ++ "/public/ticker".toList)) (by decide) (by decide)
  ⟨by decide, by decide, by decide, key.1, key.2.1, key.2.2.1⟩

/-- C5 at a freshly constructed state with the settlement "USD": `CurrencyPairs`
at `t0`, `Volume` at `t0 + 10s` and `Rate` at `t0 + 35s` for a `t0` in the year 2023, the ticker holding BTCUSD each time. -/
theorem C5_ttl_refresh_decision_witness :
    (invoke sampleParseFloat (sampleApi ["USD"]) Call.currencyPairs (1700000000 * Second)
      (Response.children [tickerRecord "BTCUSD" "7" "9"])).fetches = 1 ∧
    (invoke sampleParseFloat
      (invoke sampleParseFloat (sampleApi ["USD"]) Call.currencyPairs (1700000000 * Second)
        (Response.children [tickerRecord "BTCUSD" "7" "9"])).api
      (Call.volume "BTC".toList "USD".toList) ((1700000000 * Second) + 10 * Second)
      (Response.children [tickerRecord "BTCUSD" "8" "9"])).fetches = 0 ∧
    (invoke sampleParseFloat
      (invoke sampleParseFloat
        (invoke sampleParseFloat (sampleApi ["USD"]) Call.currencyPairs (1700000000 * Second)
          (Response.children [tickerRecord "BTCUSD" "7" "9"])).api
        (Call.volume "BTC".toList "USD".toList) ((1700000000 * Second) + 10 * Second)
        (Response.children [tickerRecord "BTCUSD" "8" "9"])).api
      (Call.rate "BTC".toList "USD".toList) ((1700000000 * Second) + 35 * Second)
      (Response.children [tickerRecord "BTCUSD" "6" "9"])).fetches = 1 ∧
    (invoke sampleParseFloat
      (invoke sampleParseFloat
        (invoke sampleParseFloat (sampleApi ["USD"]) Call.currencyPairs (1700000000 * Second)
          (Response.children [tickerRecord "BTCUSD" "7" "9"])).api
        (Call.volume "BTC".toList "USD".toList) ((1700000000 * Second) + 10 * Second)
        (Response.children [tickerRecord "BTCUSD" "8" "9"])).api
      (Call.rate "BTC".toList "USD".toList) ((1700000000 * Second) + 35 * Second)
      (Response.children [tickerRecord "BTCUSD" "6" "9"])).api.rateLastUpdated = (1700000000 * Second) + 35 * Second :=
  (C5_ttl_refresh_decision sampleParseFloat).2 (sampleApi ["USD"]) Call.currencyPairs
    (Call.volume "BTC".toList "USD".toList) (Call.rate "BTC".toList "USD".toList) (1700000000 * Second)
    (Response.children [tickerRecord "BTCUSD" "7" "9"])
    (Response.children [tickerRecord "BTCUSD" "8" "9"])
    (Response.children [tickerRecord "BTCUSD" "6" "9"])
    (by decide) (by decide) (by decide) (by decide) (by decide) (by decide) (by decide)

/-! ## Lemmas about maps -/

theorem mapGet_mapSet {V : Type} (m : GoMap V) (k k2 : GoString) (v : V) :
    mapGet (mapSet m k v) k2 = if k = k2 then some v else mapGet m k2 := by
  induction m with
  | nil => simp [mapSet, mapGet]
  | cons kv m ih =>
    obtain ⟨k0, v0⟩ := kv
    by_cases h0 : k0 = k
    · subst h0
      by_cases h2 : k0 = k2 <;> simp [mapSet, mapGet, h2]
    · by_cases h2 : k0 = k2
      · subst h2
        have : ¬ k = k0 := fun h => h0 h.symm
        simp [mapSet, mapGet, h0, this]
      · simp [mapSet, mapGet, h0, h2, ih]

/-! ## Settlement discovery -/

theorem quoteCurrencies_cons_none (v : Json) (rest : List Json)
    (hq : v.pathString "quoteCurrency".toList = none) :
    quoteCurrencies (v :: rest) = quoteCurrencies rest := by
  unfold quoteCurrencies
  simp only [List.filterMap_cons, hq]

theorem quoteCurrencies_cons_some (v : Json) (rest : List Json) (q : GoString)
    (hq : v.pathString "quoteCurrency".toList = some q) :
    quoteCurrencies (v :: rest) = q :: quoteCurrencies rest := by
  unfold quoteCurrencies
  simp only [List.filterMap_cons, hq]

theorem quoteCurrencies_append (pre post : List Json) :
    quoteCurrencies (pre ++ post) = quoteCurrencies pre ++ quoteCurrencies post :=
  List.filterMap_append _ _ _

theorem firstIndex_cons_self (a : GoString) (xs : List GoString) :
    firstIndex a (a :: xs) = 0 := by
  simp [firstIndex]

theorem firstIndex_cons_ne (a x : GoString) (xs : List GoString) (h : a ≠ x) :
    firstIndex a (x :: xs) = firstIndex a xs + 1 := by
  have : ¬ x = a := fun e => h e.symm
  simp [firstIndex, this]

theorem collectSettlements_eq (vs : List Json) (acc : List GoString) :
    collectSettlements vs acc = acc ++ quoteCurrencies vs := by
  induction vs generalizing acc with
  | nil => simp [collectSettlements, quoteCurrencies]
  | cons v rest ih =>
    unfold collectSettlements
    cases hq : v.pathString "quoteCurrency".toList with
    | none =>
      simp only [ih]
      rw [quoteCurrencies_cons_none v rest hq]
    | some q =>
      simp only [ih]
      rw [quoteCurrencies_cons_some v rest q hq, List.append_assoc]
      rfl

theorem uniqLoop_eq (l : List GoString) (m : GoMap Bool) (uniq : List GoString)
    (hinv : ∀ k, (mapGet m k).getD false = true ↔ k ∈ uniq) :
    (uniqLoop l (m, uniq)).2 = uniq ++ (firstSeen l).filter (fun y => decide (y ∉ uniq)) := by
  induction l generalizing m uniq with
  | nil => simp [uniqLoop, firstSeen]
  | cons ele rest ih =>
    unfold uniqLoop
    by_cases hin : ele ∈ uniq
    · have hm : (mapGet m ele).getD false = true := (hinv ele).mpr hin
      simp only [hm, Bool.not_true, Bool.false_eq_true, if_false]
      rw [ih m uniq hinv]
      congr 1
      simp only [firstSeen, List.filter_cons, hin, not_true_eq_false, decide_False,
        Bool.false_eq_true, if_false, List.filter_filter]
      apply List.filter_congr
      intro y _
      by_cases hy : y ∈ uniq
      · simp [hy]
      · have : y ≠ ele := fun h => hy (h ▸ hin)
        simp [hy, this]
    · have hm : (mapGet m ele).getD false = false := by
        cases hv : (mapGet m ele).getD false with
        | false => rfl
        | true => exact absurd ((hinv ele).mp hv) hin
      simp only [hm, Bool.not_false, if_true]
      have hinv2 : ∀ k, (mapGet (mapSet m ele true) k).getD false = true ↔ k ∈ uniq ++ [ele] := by
        intro k
        rw [mapGet_mapSet]
        by_cases hk : ele = k
        · subst hk; simp
        · have : ¬ k = ele := fun h => hk h.symm
          simp [hk, this, hinv k]
      rw [ih _ _ hinv2]
      simp only [firstSeen, List.filter_cons, hin, not_false_eq_true, decide_True, if_true,
        List.filter_filter, List.append_assoc, List.singleton_append]
      congr 2
      apply List.filter_congr
      intro y _
      by_cases hy : y ∈ uniq <;> by_cases hye : y = ele <;> simp [hy, hye]

theorem mem_firstSeen (l : List GoString) (a : GoString) : a ∈ firstSeen l ↔ a ∈ l := by
  induction l with
  | nil => simp [firstSeen]
  | cons x xs ih =>
    by_cases hax : a = x
    · simp [firstSeen, hax]
    · simp [firstSeen, hax, List.mem_filter, ih]

theorem nodup_firstSeen (l : List GoString) : (firstSeen l).Nodup := by
  induction l with
  | nil => simp [firstSeen]
  | cons x xs ih =>
    simp only [firstSeen, List.nodup_cons]
    refine ⟨?_, ih.filter _⟩
    simp [List.mem_filter]

/-- Filtering a list keeps the order of the first occurrences of what it keeps. -/
theorem firstIndex_filter_lt (p : GoString → Bool) (M : List GoString) (a b : GoString)
    (ha : a ∈ M) (hb : b ∈ M) (hpa : p a = true) (hpb : p b = true) :
    (firstIndex a (M.filter p) < firstIndex b (M.filter p) ↔
      firstIndex a M < firstIndex b M) := by
  induction M with
  | nil => simp at ha
  | cons m M ih =>
    by_cases hpm : p m = true
    · rw [List.filter_cons_of_pos hpm]
      by_cases ham : a = m
      · subst ham
        by_cases hba : b = a
        · subst hba; simp
        · rw [firstIndex_cons_self, firstIndex_cons_self, firstIndex_cons_ne b a _ hba,
            firstIndex_cons_ne b a _ hba]
          omega
      · by_cases hbm : b = m
        · subst hbm
          rw [firstIndex_cons_self, firstIndex_cons_self]
          omega
        · have ha2 : a ∈ M := (List.mem_cons.mp ha).resolve_left ham
          have hb2 : b ∈ M := (List.mem_cons.mp hb).resolve_left hbm
          rw [firstIndex_cons_ne a m _ ham, firstIndex_cons_ne a m _ ham,
            firstIndex_cons_ne b m _ hbm, firstIndex_cons_ne b m _ hbm]
          have := ih ha2 hb2
          omega
    · have ham : a ≠ m := fun h => hpm (h ▸ hpa)
      have hbm : b ≠ m := fun h => hpm (h ▸ hpb)
      have ha2 : a ∈ M := (List.mem_cons.mp ha).resolve_left ham
      have hb2 : b ∈ M := (List.mem_cons.mp hb).resolve_left hbm
      rw [List.filter_cons_of_neg hpm, firstIndex_cons_ne a m _ ham, firstIndex_cons_ne b m _ hbm]
      have := ih ha2 hb2
      omega

/-- The elements of `firstSeen l` stand in the order of their first occurrences in `l`. -/
theorem firstIndex_firstSeen_lt (l : List GoString) (a b : GoString) (ha : a ∈ l) (hb : b ∈ l) :
    (firstIndex a (firstSeen l) < firstIndex b (firstSeen l) ↔
      firstIndex a l < firstIndex b l) := by
  induction l with
  | nil => simp at ha
  | cons x xs ih =>
    simp only [firstSeen]
    by_cases hax : a = x
    · subst hax
      by_cases hba : b = a
      · subst hba; simp
      · rw [firstIndex_cons_self, firstIndex_cons_self, firstIndex_cons_ne b a _ hba,
          firstIndex_cons_ne b a _ hba]
        omega
    · by_cases hbx : b = x
      · subst hbx
        rw [firstIndex_cons_self, firstIndex_cons_self]
        omega
      · have ha2 : a ∈ xs := (List.mem_cons.mp ha).resolve_left hax
        have hb2 : b ∈ xs := (List.mem_cons.mp hb).resolve_left hbx
        rw [firstIndex_cons_ne a x _ hax, firstIndex_cons_ne a x _ hax,
          firstIndex_cons_ne b x _ hbx, firstIndex_cons_ne b x _ hbx]
        have h1 := firstIndex_filter_lt (fun y => decide (y ≠ x)) (firstSeen xs) a b
          ((mem_firstSeen xs a).mpr ha2) ((mem_firstSeen xs b).mpr hb2)
          (by simp [hax]) (by simp [hbx])
        have h2 := ih ha2 hb2
        omega

/-- C9.  On a catalog that was fetched and decoded, `fetchSettlements` returns
`nil` and stores the string-valued `quoteCurrency` members of the records with
every later duplicate removed: the stored list has no duplicate, it holds a
code exactly when some record carries it as a string `quoteCurrency`, its
codes stand in the order of their first occurrences in the catalog, and a
record without a string `quoteCurrency` adds nothing.  Nothing else of the
state changes. -/
theorem C9_settlements_first_seen {F : Type} (h : HitbtcApi F) (catalog : List Json) :
    (fetchSettlements h (Response.children catalog)).2 = none ∧
    (fetchSettlements h (Response.children catalog)).1.settlements
      = firstSeen (quoteCurrencies catalog) ∧
    (fetchSettlements h (Response.children catalog)).1.settlements.Nodup ∧
    (∀ code, code ∈ (fetchSettlements h (Response.children catalog)).1.settlements ↔
      ∃ v ∈ catalog, v.pathString "quoteCurrency".toList = some code) ∧
    (∀ a b, a ∈ quoteCurrencies catalog → b ∈ quoteCurrencies catalog →
      (firstIndex a (fetchSettlements h (Response.children catalog)).1.settlements
          < firstIndex b (fetchSettlements h (Response.children catalog)).1.settlements ↔
        firstIndex a (quoteCurrencies catalog) < firstIndex b (quoteCurrencies catalog))) ∧
    (∀ (pre post : List Json) (v : Json), v.pathString "quoteCurrency".toList = none →
      (fetchSettlements h (Response.children (pre ++ v :: post))).1.settlements
        = (fetchSettlements h (Response.children (pre ++ post))).1.settlements) ∧
    (fetchSettlements h (Response.children catalog)).1.rateMap = h.rateMap ∧
    (fetchSettlements h (Response.children catalog)).1.volumeMap = h.volumeMap ∧
    (fetchSettlements h (Response.children catalog)).1.rateLastUpdated = h.rateLastUpdated ∧
    (fetchSettlements h (Response.children catalog)).1.c = h.c := by
  have hset : ∀ vs : List Json, (fetchSettlements h (Response.children vs)).1.settlements
      = firstSeen (quoteCurrencies vs) := by
    intro vs
    simp only [fetchSettlements]
    rw [collectSettlements_eq, uniqLoop_eq _ _ _ (by simp [mapGet])]
    simp
  refine ⟨rfl, hset catalog, ?_, ?_, ?_, ?_, rfl, rfl, rfl, rfl⟩
  · rw [hset]; exact nodup_firstSeen _
  · intro code
    rw [hset, mem_firstSeen]
    simp [quoteCurrencies, List.mem_filterMap]
  · intro a b ha hb
    rw [hset]
    exact firstIndex_firstSeen_lt _ a b ha hb
  · intro pre post v hv
    rw [hset, hset]
    rw [quoteCurrencies_append, quoteCurrencies_append, quoteCurrencies_cons_none v post hv]

/-- C9 on a catalog of five records, one of them without `quoteCurrency`. -/
theorem settlements_example :
    (fetchSettlements (sampleApi [])
      (Response.children [symbolRecord "BTC", symbolRecord "USD", Json.object [],
        symbolRecord "BTC", symbolRecord "ETH", Json.number "1".toList,
        symbolRecord "USD"])).1.settlements
      = ["BTC".toList, "USD".toList, "ETH".toList] := by
  decide

/-! ## Lookups -/

section
variable {F : Type} (ParseFloat : GoString → Option F)

/-- When the refresh block ends well, it ends in a state `h1` that is `h`
itself (nothing to refresh) or the result of `fetchRate` stamped with `now`. -/
theorem refresh_of_fresh_or_ok (h : HitbtcApi F) (now : Int) (resp : Response)
    (hfresh : ¬ Time.Sub now h.rateLastUpdated ≥ h.c.RateCacheDuration ∨
      (fetchRate ParseFloat h resp).2 = Exit.ok) :
    ∃ h1 n, refresh ParseFloat h now resp = (h1, Exit.ok, n) ∧
      (¬ Time.Sub now h.rateLastUpdated ≥ h.c.RateCacheDuration → h1 = h) ∧
      (Time.Sub now h.rateLastUpdated ≥ h.c.RateCacheDuration →
        h1 = { (fetchRate ParseFloat h resp).1 with rateLastUpdated := now }) := by
  by_cases hexp : Time.Sub now h.rateLastUpdated ≥ h.c.RateCacheDuration
  · have hok : (fetchRate ParseFloat h resp).2 = Exit.ok := hfresh.resolve_left (fun hn => hn hexp)
    exact ⟨_, 1, refresh_ok ParseFloat h now resp hexp hok, fun hn => absurd hexp hn, fun _ => rfl⟩
  · exact ⟨h, 0, refresh_fresh ParseFloat h now resp hexp, fun _ => rfl, fun hn => absurd hn hexp⟩

/-- The method `Volume` after a refresh block that ended well. -/
theorem Volume_of_refresh_ok [Zero F] (h : HitbtcApi F) (trading settlement : GoString) (now : Int)
    (resp : Response) (h1 : HitbtcApi F) (n : Nat)
    (hrf : refresh ParseFloat h now resp = (h1, Exit.ok, n)) :
    Volume ParseFloat h trading settlement now resp =
      { api := h1,
        ret := match mapGet2 h1.volumeMap trading settlement with
          | some v => some (v, none)
          | none => some (0, some (Error.notFound trading settlement)),
        fetches := n } := by
  unfold Volume mapGet2
  rw [hrf]
  simp only
  cases hm : mapGet h1.volumeMap trading with
  | none => rfl
  | some m =>
    simp only
    cases hv : mapGet m settlement <;> rfl

/-- The method `Rate` after a refresh block that ended well. -/
theorem Rate_of_refresh_ok [Zero F] [One F] (h : HitbtcApi F) (trading settlement : GoString) (now : Int)
    (resp : Response) (h1 : HitbtcApi F) (n : Nat) (hne : trading ≠ settlement)
    (hrf : refresh ParseFloat h now resp = (h1, Exit.ok, n)) :
    Rate ParseFloat h trading settlement now resp =
      { api := h1,
        ret := match mapGet2 h1.rateMap trading settlement with
          | some v => some (v, none)
          | none => some (0, some (Error.notFound trading settlement)),
        fetches := n } := by
  unfold Rate mapGet2
  rw [if_neg hne, hrf]
  simp only
  cases hm : mapGet h1.rateMap trading with
  | none => rfl
  | some m =>
    simp only
    cases hv : mapGet m settlement <;> rfl

/-- C10.  When the refresh block ends well (the cache has not expired, or
`fetchRate` returned `nil`), `Volume(trading, settlement)` returns `(v, nil)`
if `volumeMap` holds `v` under `trading` and then `settlement`, and `0` with
the error `trading/settlement` if `trading` is absent from `volumeMap` or
`settlement` is absent from the map under `trading`; `Rate` with
`trading != settlement` does the same on `rateMap`.  The maps are those of
the state after the refresh block, which is the state after the call. -/
theorem C10_lookup_not_found [Zero F] [One F] (h : HitbtcApi F) (trading settlement : GoString) (now : Int)
    (resp : Response)
    (hfresh : ¬ Time.Sub now h.rateLastUpdated ≥ h.c.RateCacheDuration ∨
      (fetchRate ParseFloat h resp).2 = Exit.ok) :
    ((Volume ParseFloat h trading settlement now resp).api = (refresh ParseFloat h now resp).1 ∧
      (∀ m v, mapGet (Volume ParseFloat h trading settlement now resp).api.volumeMap trading = some m →
        mapGet m settlement = some v →
        (Volume ParseFloat h trading settlement now resp).ret = some (v, none)) ∧
      (mapGet (Volume ParseFloat h trading settlement now resp).api.volumeMap trading = none →
        (Volume ParseFloat h trading settlement now resp).ret
          = some (0, some (Error.notFound trading settlement))) ∧
      (∀ m, mapGet (Volume ParseFloat h trading settlement now resp).api.volumeMap trading = some m →
        mapGet m settlement = none →
        (Volume ParseFloat h trading settlement now resp).ret
          = some (0, some (Error.notFound trading settlement)))) ∧
    (trading ≠ settlement →
      (Rate ParseFloat h trading settlement now resp).api = (refresh ParseFloat h now resp).1 ∧
      (∀ m v, mapGet (Rate ParseFloat h trading settlement now resp).api.rateMap trading = some m →
        mapGet m settlement = some v →
        (Rate ParseFloat h trading settlement now resp).ret = some (v, none)) ∧
      (mapGet (Rate ParseFloat h trading settlement now resp).api.rateMap trading = none →
        (Rate ParseFloat h trading settlement now resp).ret
          = some (0, some (Error.notFound trading settlement))) ∧
      (∀ m, mapGet (Rate ParseFloat h trading settlement now resp).api.rateMap trading = some m →
        mapGet m settlement = none →
        (Rate ParseFloat h trading settlement now resp).ret
          = some (0, some (Error.notFound trading settlement)))) := by
  obtain ⟨h1, n, hrf, _, _⟩ := refresh_of_fresh_or_ok ParseFloat h now resp hfresh
  constructor
  · rw [Volume_of_refresh_ok ParseFloat h trading settlement now resp h1 n hrf, hrf]
    refine ⟨rfl, ?_, ?_, ?_⟩
    · intro m v hm hv
      simp [mapGet2, hm, hv]
    · intro hm
      simp [mapGet2, hm]
    · intro m hm hv
      simp [mapGet2, hm, hv]
  · intro hne
    rw [Rate_of_refresh_ok ParseFloat h trading settlement now resp h1 n hne hrf, hrf]
    refine ⟨rfl, ?_, ?_, ?_⟩
    · intro m v hm hv
      simp [mapGet2, hm, hv]
    · intro hm
      simp [mapGet2, hm]
    · intro m hm hv
      simp [mapGet2, hm, hv]

end

/-- C10 at a cache that holds BTC/USD and has not expired: the volume 9 and
the rate 7 are returned. -/
theorem C10_lookup_not_found_witness :
    (¬ Time.Sub (20 * Second) (cachedApi 0).rateLastUpdated ≥ (cachedApi 0).c.RateCacheDuration ∨
      (fetchRate sampleParseFloat (cachedApi 0) Response.getFailed).2 = Exit.ok) ∧
    (Volume sampleParseFloat (cachedApi 0) "BTC".toList "USD".toList (20 * Second)
      Response.getFailed).ret = some (9, none) ∧
    (Rate sampleParseFloat (cachedApi 0) "BTC".toList "USD".toList (20 * Second)
      Response.getFailed).ret = some (7, none) :=
  have key := C10_lookup_not_found sampleParseFloat (cachedApi 0) "BTC".toList "USD".toList
    (20 * Second) Response.getFailed (Or.inl (by decide))
  ⟨Or.inl (by decide),
    key.1.2.1 [("USD".toList, 9)] 9 (by decide) (by decide),
    (key.2 (by decide)).2.1 [("USD".toList, 7)] 7 (by decide) (by decide)⟩

/-- The lookups of C10 on a cache that holds BTC/USD: a pair that is absent at
either level gives `0` and the error `trading/settlement`. -/
theorem lookup_examples :
    (Volume sampleParseFloat (cachedApi 0) "ETH".toList "USD".toList (20 * Second)
      Response.getFailed).ret = some (0, some (Error.notFound "ETH".toList "USD".toList)) ∧
    (Volume sampleParseFloat (cachedApi 0) "BTC".toList "EUR".toList (20 * Second)
      Response.getFailed).ret = some (0, some (Error.notFound "BTC".toList "EUR".toList)) ∧
    (Rate sampleParseFloat (cachedApi 0) "BTC".toList "EUR".toList (20 * Second)
      Response.getFailed).ret = some (0, some (Error.notFound "BTC".toList "EUR".toList)) ∧
    (Rate sampleParseFloat (sampleApi ["USD"]) "BTC".toList "USD".toList (1700000000 * Second)
      (Response.children [tickerRecord "BTCUSD" "7" "9"])).ret = some (7, none) ∧
    (Rate sampleParseFloat (sampleApi ["USD"]) "ETH".toList "USD".toList (1700000000 * Second)
      (Response.children [tickerRecord "BTCUSD" "7" "9"])).ret
        = some (0, some (Error.notFound "ETH".toList "USD".toList)) := by
  refine ⟨by decide, by decide, by decide, by decide, by decide⟩

/-! ## The ticker loop -/

theorem mapGet2_mapSet2 {V : Type} (m : GoMap (GoMap V)) (t s t2 s2 : GoString) (x : V) :
    mapGet2 (mapSet2 m t s x) t2 s2 =
      if t = t2 ∧ s = s2 then some x else mapGet2 m t2 s2 := by
  unfold mapSet2 mapGet2
  cases hm : mapGet m t with
  | none =>
    simp only [mapGet_mapSet]
    by_cases ht : t = t2
    · subst ht
      by_cases hs : s = s2
      · simp [hs, mapSet, mapGet]
      · simp [hs, mapSet, mapGet, hm]
    · simp [ht]
  | some inner =>
    simp only [mapGet_mapSet]
    by_cases ht : t = t2
    · subst ht
      by_cases hs : s = s2
      · simp [hs, mapGet_mapSet]
      · simp [hs, hm, mapGet_mapSet]
    · simp [ht]

section
variable {F : Type} (ParseFloat : GoString → Option F)

theorem tickerLoop_cons_ok (v : Json) (rest : List Json) (h h1 : HitbtcApi F)
    (hstep : tickerStep ParseFloat h v = (h1, Exit.ok)) :
    tickerLoop ParseFloat (v :: rest) h = tickerLoop ParseFloat rest h1 := by
  rw [tickerLoop, hstep]

theorem tickerLoop_cons_stop (v : Json) (rest : List Json) (h h1 : HitbtcApi F) (e : Exit)
    (hstep : tickerStep ParseFloat h v = (h1, e)) (he : e ≠ Exit.ok) :
    tickerLoop ParseFloat (v :: rest) h = (h1, e) := by
  rw [tickerLoop, hstep]
  cases e with
  | ok => exact absurd rfl he
  | err e => rfl
  | panic => rfl

theorem tickerLoop_append_ok (a b : List Json) (h h1 : HitbtcApi F)
    (ha : tickerLoop ParseFloat a h = (h1, Exit.ok)) :
    tickerLoop ParseFloat (a ++ b) h = tickerLoop ParseFloat b h1 := by
  induction a generalizing h with
  | nil =>
    simp only [tickerLoop, Prod.mk.injEq, and_true] at ha
    subst ha
    rfl
  | cons v rest ih =>
    rcases hstep : tickerStep ParseFloat h v with ⟨h2, e⟩
    by_cases he : e = Exit.ok
    · subst he
      rw [tickerLoop_cons_ok ParseFloat v rest h h2 hstep] at ha
      rw [List.cons_append, tickerLoop_cons_ok ParseFloat v (rest ++ b) h h2 hstep]
      exact ih h2 ha
    · rw [tickerLoop_cons_stop ParseFloat v rest h h2 e hstep he] at ha
      simp only [Prod.mk.injEq] at ha
      exact absurd ha.2 he

theorem tickerLoop_append_stop (a b : List Json) (h h1 : HitbtcApi F) (e : Exit)
    (ha : tickerLoop ParseFloat a h = (h1, e)) (he : e ≠ Exit.ok) :
    tickerLoop ParseFloat (a ++ b) h = (h1, e) := by
  induction a generalizing h with
  | nil =>
    simp only [tickerLoop, Prod.mk.injEq] at ha
    exact absurd ha.2.symm he
  | cons v rest ih =>
    rcases hstep : tickerStep ParseFloat h v with ⟨h2, e2⟩
    by_cases he2 : e2 = Exit.ok
    · subst he2
      rw [tickerLoop_cons_ok ParseFloat v rest h h2 hstep] at ha
      rw [List.cons_append, tickerLoop_cons_ok ParseFloat v (rest ++ b) h h2 hstep]
      exact ih h2 ha
    · rw [tickerLoop_cons_stop ParseFloat v rest h h2 e2 hstep he2] at ha
      rw [List.cons_append, tickerLoop_cons_stop ParseFloat v (rest ++ b) h h2 e2 hstep he2]
      exact ha

/-- A record without a string `symbol` leaves the state alone. -/
theorem tickerStep_no_symbol (h : HitbtcApi F) (v : Json)
    (hv : v.pathString "symbol".toList = none) :
    tickerStep ParseFloat h v = (h, Exit.ok) := by
  unfold tickerStep
  rw [hv]

/-- A record without a string `last` leaves the state alone (and the split
of its symbol may panic). -/
theorem tickerStep_no_last (h : HitbtcApi F) (v : Json)
    (hv : v.pathString "last".toList = none) :
    tickerStep ParseFloat h v = (h, Exit.ok) ∨ tickerStep ParseFloat h v = (h, Exit.panic) := by
  unfold tickerStep
  cases v.pathString "symbol".toList with
  | none => exact Or.inl rfl
  | some pair =>
    simp only
    cases splitSymbol h.settlements pair with
    | panic => exact Or.inr rfl
    | skip => exact Or.inl rfl
    | pair t s =>
      simp only
      rw [hv]
      exact Or.inl rfl

/-- A record without a string `volume` leaves `volumeMap` alone. -/
theorem tickerStep_no_volume (h : HitbtcApi F) (v : Json)
    (hv : v.pathString "volume".toList = none) :
    (tickerStep ParseFloat h v).1.volumeMap = h.volumeMap := by
  unfold tickerStep
  cases v.pathString "symbol".toList with
  | none => rfl
  | some pair =>
    simp only
    cases splitSymbol h.settlements pair with
    | panic => rfl
    | skip => rfl
    | pair t s =>
      simp only
      cases v.pathString "last".toList with
      | none => rfl
      | some last =>
        simp only
        cases ParseFloat last with
        | none => rfl
        | some lastf =>
          simp only
          rw [hv]

/-- How a turn of the loop ends, and what it does to `volumeMap`, does not
depend on `rateMap`. -/
theorem tickerStep_volume_indep (h g : HitbtcApi F) (v : Json)
    (hs : h.settlements = g.settlements) (hvm : h.volumeMap = g.volumeMap) :
    (tickerStep ParseFloat h v).2 = (tickerStep ParseFloat g v).2 ∧
    (tickerStep ParseFloat h v).1.volumeMap = (tickerStep ParseFloat g v).1.volumeMap := by
  unfold tickerStep
  rw [hs]
  cases v.pathString "symbol".toList with
  | none => exact ⟨rfl, hvm⟩
  | some pair =>
    simp only
    cases splitSymbol g.settlements pair with
    | panic => exact ⟨rfl, hvm⟩
    | skip => exact ⟨rfl, hvm⟩
    | pair t s =>
      simp only
      cases v.pathString "last".toList with
      | none => exact ⟨rfl, hvm⟩
      | some last =>
        simp only
        cases ParseFloat last with
        | none => exact ⟨rfl, hvm⟩
        | some lastf =>
          simp only
          cases v.pathString "volume".toList with
          | none => exact ⟨rfl, hvm⟩
          | some volume =>
            simp only
            cases ParseFloat volume with
            | none => exact ⟨rfl, hvm⟩
            | some volumef =>
              simp only [true_and]
              rw [hvm]

/-- How the loop ends, and the `volumeMap` it builds, do not depend on `rateMap`. -/
theorem tickerLoop_volume_indep (vs : List Json) (h g : HitbtcApi F)
    (hs : h.settlements = g.settlements) (hvm : h.volumeMap = g.volumeMap) :
    (tickerLoop ParseFloat vs h).2 = (tickerLoop ParseFloat vs g).2 ∧
    (tickerLoop ParseFloat vs h).1.volumeMap = (tickerLoop ParseFloat vs g).1.volumeMap := by
  induction vs generalizing h g with
  | nil => exact ⟨rfl, hvm⟩
  | cons v rest ih =>
    obtain ⟨he, hv⟩ := tickerStep_volume_indep ParseFloat h g v hs hvm
    have hfh := (tickerStep_frame ParseFloat h v).2.1
    have hfg := (tickerStep_frame ParseFloat g v).2.1
    rcases hsh : tickerStep ParseFloat h v with ⟨h2, e⟩
    rcases hsg : tickerStep ParseFloat g v with ⟨g2, e2⟩
    rw [hsh, hsg] at he hv
    rw [hsh] at hfh
    rw [hsg] at hfg
    simp only at he hv hfh hfg
    subst he
    by_cases hok : e = Exit.ok
    · subst hok
      rw [tickerLoop_cons_ok ParseFloat v rest h h2 hsh,
        tickerLoop_cons_ok ParseFloat v rest g g2 hsg]
      exact ih h2 g2 (by rw [hfh, hfg, hs]) hv
    · rw [tickerLoop_cons_stop ParseFloat v rest h h2 e hsh hok,
        tickerLoop_cons_stop ParseFloat v rest g g2 e hsg hok]
      exact ⟨rfl, hv⟩

/-- A turn of the loop removes no key of `rateMap`. -/
theorem tickerStep_rate_mono (h : HitbtcApi F) (v : Json) (t s : GoString)
    (hin : mapGet2 h.rateMap t s ≠ none) :
    mapGet2 (tickerStep ParseFloat h v).1.rateMap t s ≠ none := by
  have hset : ∀ t2 s2 x, mapGet2 (mapSet2 h.rateMap t2 s2 x) t s ≠ none := by
    intro t2 s2 x
    rw [mapGet2_mapSet2]
    split
    · simp
    · exact hin
  unfold tickerStep
  repeat' split
  all_goals first | exact hin | exact hset _ _ _

/-- The loop removes no key of `rateMap`. -/
theorem tickerLoop_rate_mono (vs : List Json) (h : HitbtcApi F) (t s : GoString)
    (hin : mapGet2 h.rateMap t s ≠ none) :
    mapGet2 (tickerLoop ParseFloat vs h).1.rateMap t s ≠ none := by
  induction vs generalizing h with
  | nil => exact hin
  | cons v rest ih =>
    have hstep := tickerStep_rate_mono ParseFloat h v t s hin
    rcases hsh : tickerStep ParseFloat h v with ⟨h2, e⟩
    rw [hsh] at hstep
    by_cases hok : e = Exit.ok
    · subst hok
      rw [tickerLoop_cons_ok ParseFloat v rest h h2 hsh]
      exact ih h2 hstep
    · rw [tickerLoop_cons_stop ParseFloat v rest h h2 e hsh hok]
      exact hstep

/-- A record whose symbol splits and whose `last` parses, without a string
`volume`: the rate is stored, the turn ends well. -/
theorem tickerStep_rate_only (h : HitbtcApi F) (v : Json) (pair t s last : GoString) (x : F)
    (hsym : v.pathString "symbol".toList = some pair)
    (hsplit : splitSymbol h.settlements pair = Split.pair t s)
    (hlast : v.pathString "last".toList = some last) (hx : ParseFloat last = some x)
    (hvol : v.pathString "volume".toList = none) :
    tickerStep ParseFloat h v = ({ h with rateMap := mapSet2 h.rateMap t s x }, Exit.ok) := by
  unfold tickerStep
  rw [hsym]
  simp only
  rw [hsplit]
  simp only
  rw [hlast]
  simp only
  rw [hx]
  simp only
  rw [hvol]

end

/-! ## Structurally incomplete records -/

section
variable {F : Type} (ParseFloat : GoString → Option F)

/-- The method `fetchRate` on a decoded ticker is the loop from the emptied maps. -/
theorem fetchRate_children (h : HitbtcApi F) (vs : List Json) :
    fetchRate ParseFloat h (Response.children vs) =
      tickerLoop ParseFloat vs { h with rateMap := [], volumeMap := [] } := rfl

/-- A record stores at most one rate, under one key. -/
theorem storesRate_unique (S : List GoString) (v : Json) (t s t2 s2 : GoString) (x x2 : F)
    (h1 : StoresRate ParseFloat S v t s x) (h2 : StoresRate ParseFloat S v t2 s2 x2) :
    t = t2 ∧ s = s2 ∧ x = x2 := by
  obtain ⟨pair, last, hsym, hsp, hlast, hx⟩ := h1
  obtain ⟨pair2, last2, hsym2, hsp2, hlast2, hx2⟩ := h2
  rw [hsym] at hsym2
  cases hsym2
  rw [hlast] at hlast2
  cases hlast2
  rw [hsp] at hsp2
  cases hsp2
  rw [hx] at hx2
  cases hx2
  exact ⟨rfl, rfl, rfl⟩

/-- What a turn of the loop does to `rateMap`: it writes the rate that the
record stores, or, when the record stores none, nothing. -/
theorem tickerStep_rate (h : HitbtcApi F) (v : Json) :
    (∃ t s x, StoresRate ParseFloat h.settlements v t s x ∧
      (tickerStep ParseFloat h v).1.rateMap = mapSet2 h.rateMap t s x) ∨
    ((∀ t s x, ¬ StoresRate ParseFloat h.settlements v t s x) ∧
      (tickerStep ParseFloat h v).1.rateMap = h.rateMap) := by
  unfold tickerStep StoresRate
  cases v.pathString "symbol".toList with
  | none =>
    refine Or.inr ⟨?_, rfl⟩
    rintro t s x ⟨pair, last, h1, _⟩
    cases h1
  | some pair =>
    simp only
    cases hsp : splitSymbol h.settlements pair with
    | panic =>
      refine Or.inr ⟨?_, rfl⟩
      rintro t s x ⟨pair2, last, h1, h2, _⟩
      cases h1
      rw [hsp] at h2
      cases h2
    | skip =>
      refine Or.inr ⟨?_, rfl⟩
      rintro t s x ⟨pair2, last, h1, h2, _⟩
      cases h1
      rw [hsp] at h2
      cases h2
    | pair t0 s0 =>
      simp only
      cases v.pathString "last".toList with
      | none =>
        refine Or.inr ⟨?_, rfl⟩
        rintro t s x ⟨pair2, last, _, _, h3, _⟩
        cases h3
      | some last =>
        simp only
        cases hl : ParseFloat last with
        | none =>
          refine Or.inr ⟨?_, rfl⟩
          rintro t s x ⟨pair2, last2, _, _, h3, h4⟩
          cases h3
          rw [hl] at h4
          cases h4
        | some lastf =>
          simp only
          refine Or.inl ⟨t0, s0, lastf, ⟨pair, last, rfl, hsp, rfl, hl⟩, ?_⟩
          cases v.pathString "volume".toList with
          | none => rfl
          | some volume =>
            simp only
            cases ParseFloat volume with
            | none => rfl
            | some volumef => rfl

/-- Two states with the same settlements whose `rateMap`s agree at a key
still agree at that key after a turn of the loop on the same record. -/
theorem tickerStep_rate_agree (a b : HitbtcApi F) (v : Json) (t s : GoString)
    (hs : a.settlements = b.settlements)
    (hag : mapGet2 a.rateMap t s = mapGet2 b.rateMap t s) :
    mapGet2 (tickerStep ParseFloat a v).1.rateMap t s
      = mapGet2 (tickerStep ParseFloat b v).1.rateMap t s := by
  rcases tickerStep_rate ParseFloat a v with ⟨t1, s1, x1, hst1, hr1⟩ | ⟨hno1, hr1⟩
  · rcases tickerStep_rate ParseFloat b v with ⟨t2, s2, x2, hst2, hr2⟩ | ⟨hno2, _⟩
    · rw [hs] at hst1
      obtain ⟨e1, e2, e3⟩ := storesRate_unique ParseFloat _ v t1 s1 t2 s2 x1 x2 hst1 hst2
      subst e1
      subst e2
      subst e3
      rw [hr1, hr2, mapGet2_mapSet2, mapGet2_mapSet2]
      split
      · rfl
      · exact hag
    · rw [hs] at hst1
      exact absurd hst1 (hno2 t1 s1 x1)
  · rcases tickerStep_rate ParseFloat b v with ⟨t2, s2, x2, hst2, _⟩ | ⟨_, hr2⟩
    · rw [← hs] at hst2
      exact absurd hst2 (hno1 t2 s2 x2)
    · rw [hr1, hr2]
      exact hag

/-- Two states with the same settlements and `volumeMap` whose `rateMap`s
agree at a key still agree at that key after the loop over the same records. -/
theorem tickerLoop_rate_agree (vs : List Json) (a b : HitbtcApi F) (t s : GoString)
    (hs : a.settlements = b.settlements) (hvm : a.volumeMap = b.volumeMap)
    (hag : mapGet2 a.rateMap t s = mapGet2 b.rateMap t s) :
    mapGet2 (tickerLoop ParseFloat vs a).1.rateMap t s
      = mapGet2 (tickerLoop ParseFloat vs b).1.rateMap t s := by
  induction vs generalizing a b with
  | nil => exact hag
  | cons v rest ih =>
    obtain ⟨he, hv⟩ := tickerStep_volume_indep ParseFloat a b v hs hvm
    have hstep := tickerStep_rate_agree ParseFloat a b v t s hs hag
    have hfa := (tickerStep_frame ParseFloat a v).2.1
    have hfb := (tickerStep_frame ParseFloat b v).2.1
    rcases hsa : tickerStep ParseFloat a v with ⟨a2, e⟩
    rcases hsb : tickerStep ParseFloat b v with ⟨b2, e2⟩
    rw [hsa, hsb] at he hv hstep
    rw [hsa] at hfa
    rw [hsb] at hfb
    simp only at he hv hstep hfa hfb
    subst he
    by_cases hok : e = Exit.ok
    · subst hok
      rw [tickerLoop_cons_ok ParseFloat v rest a a2 hsa,
        tickerLoop_cons_ok ParseFloat v rest b b2 hsb]
      exact ih a2 b2 (by rw [hfa, hfb, hs]) hv hstep
    · rw [tickerLoop_cons_stop ParseFloat v rest a a2 e hsa hok,
        tickerLoop_cons_stop ParseFloat v rest b b2 e hsb hok]
      exact hstep

/-- A rate stays in `rateMap` through the loop over records none of which
stores a rate under its key. -/
theorem tickerLoop_rate_keeps (vs : List Json) (h : HitbtcApi F) (t s : GoString) (x : F)
    (hno : ∀ w ∈ vs, ∀ y, ¬ StoresRate ParseFloat h.settlements w t s y)
    (hval : mapGet2 h.rateMap t s = some x) :
    mapGet2 (tickerLoop ParseFloat vs h).1.rateMap t s = some x := by
  induction vs generalizing h with
  | nil => exact hval
  | cons v rest ih =>
    have hstep : mapGet2 (tickerStep ParseFloat h v).1.rateMap t s = some x := by
      rcases tickerStep_rate ParseFloat h v with ⟨t1, s1, x1, hst1, hr1⟩ | ⟨_, hr1⟩
      · have hk : ¬ (t1 = t ∧ s1 = s) := by
          rintro ⟨e1, e2⟩
          subst e1
          subst e2
          exact hno v (List.mem_cons_self _ _) x1 hst1
        rw [hr1, mapGet2_mapSet2, if_neg hk]
        exact hval
      · rw [hr1]
        exact hval
    have hfr := (tickerStep_frame ParseFloat h v).2.1
    rcases hsh : tickerStep ParseFloat h v with ⟨h2, e⟩
    rw [hsh] at hstep hfr
    simp only at hstep hfr
    by_cases hok : e = Exit.ok
    · subst hok
      rw [tickerLoop_cons_ok ParseFloat v rest h h2 hsh]
      exact ih h2 (fun w hw y => by rw [hfr]; exact hno w (List.mem_cons_of_mem _ hw) y) hstep
    · rw [tickerLoop_cons_stop ParseFloat v rest h h2 e hsh hok]
      exact hstep

/-- When the loop ends well and one of its records stores a rate under a
key, the final `rateMap` at that key does not depend on the `rateMap` the
loop started from. -/
theorem tickerLoop_rate_overwritten (vs : List Json) (a b : HitbtcApi F) (t s : GoString)
    (hs : a.settlements = b.settlements) (hvm : a.volumeMap = b.volumeMap)
    (hex : ∃ w ∈ vs, ∃ y, StoresRate ParseFloat a.settlements w t s y)
    (hok : (tickerLoop ParseFloat vs a).2 = Exit.ok) :
    mapGet2 (tickerLoop ParseFloat vs a).1.rateMap t s
      = mapGet2 (tickerLoop ParseFloat vs b).1.rateMap t s := by
  induction vs generalizing a b with
  | nil =>
    obtain ⟨w, hw, _⟩ := hex
    cases hw
  | cons v rest ih =>
    obtain ⟨he, hv⟩ := tickerStep_volume_indep ParseFloat a b v hs hvm
    have hra := tickerStep_rate ParseFloat a v
    have hrb := tickerStep_rate ParseFloat b v
    have hfa := (tickerStep_frame ParseFloat a v).2.1
    have hfb := (tickerStep_frame ParseFloat b v).2.1
    rcases hsa : tickerStep ParseFloat a v with ⟨a2, e⟩
    rcases hsb : tickerStep ParseFloat b v with ⟨b2, e2⟩
    rw [hsa, hsb] at he hv
    rw [hsa] at hfa hra
    rw [hsb] at hfb hrb
    simp only at he hv hfa hfb hra hrb
    subst he
    have he : e = Exit.ok := by
      by_contra hne
      rw [tickerLoop_cons_stop ParseFloat v rest a a2 e hsa hne] at hok
      exact hne hok
    subst he
    rw [tickerLoop_cons_ok ParseFloat v rest a a2 hsa] at hok ⊢
    rw [tickerLoop_cons_ok ParseFloat v rest b b2 hsb]
    have hs2 : a2.settlements = b2.settlements := by rw [hfa, hfb, hs]
    by_cases hst : ∃ y, StoresRate ParseFloat a.settlements v t s y
    · obtain ⟨y, hy⟩ := hst
      have hya : a2.rateMap = mapSet2 a.rateMap t s y := by
        rcases hra with ⟨t1, s1, x1, hst1, hr1⟩ | ⟨hno1, _⟩
        · obtain ⟨e1, e2, e3⟩ := storesRate_unique ParseFloat _ v t1 s1 t s x1 y hst1 hy
          subst e1
          subst e2
          subst e3
          exact hr1
        · exact absurd hy (hno1 t s y)
      have hyb : b2.rateMap = mapSet2 b.rateMap t s y := by
        rcases hrb with ⟨t1, s1, x1, hst1, hr1⟩ | ⟨hno1, _⟩
        · rw [← hs] at hst1
          obtain ⟨e1, e2, e3⟩ := storesRate_unique ParseFloat _ v t1 s1 t s x1 y hst1 hy
          subst e1
          subst e2
          subst e3
          exact hr1
        · rw [← hs] at hno1
          exact absurd hy (hno1 t s y)
      apply tickerLoop_rate_agree ParseFloat rest a2 b2 t s hs2 hv
      rw [hya, hyb, mapGet2_mapSet2, mapGet2_mapSet2]
      simp
    · obtain ⟨w, hw, y, hy⟩ := hex
      rcases List.mem_cons.mp hw with hwv | hwr
      · subst hwv
        exact absurd ⟨y, hy⟩ hst
      · exact ih a2 b2 hs2 hv ⟨w, hwr, y, by rw [hfa]; exact hy⟩ hok

/-- Two states with the same fields are the same state. -/
theorem HitbtcApi.eq_of_fields (a b : HitbtcApi F) (h1 : a.volumeMap = b.volumeMap)
    (h2 : a.rateMap = b.rateMap) (h3 : a.rateLastUpdated = b.rateLastUpdated)
    (h4 : a.settlements = b.settlements) (h5 : a.c = b.c) : a = b := by
  cases a
  cases b
  simp only at h1 h2 h3 h4 h5
  subst h1
  subst h2
  subst h3
  subst h4
  subst h5
  rfl

/-- C7 (amended).  On a snapshot on which `fetchRate` returns `nil`: a record
whose `symbol` or `last` is absent or not a string adds nothing to either map
(the result is that of the snapshot without the record).  A record whose
`volume` is absent or not a string adds nothing to `volumeMap` (`fetchRate`
returns `nil` with the same `volumeMap` on the snapshot without the record),
and it changes `rateMap` at most at its own key: if it stores no rate
(its symbol does not split, or its `last` is not a string), the result is
that of the snapshot without the record; if it stores the rate `x` under
`(t, s)` (its symbol splits into `(t, s)` and its `last` parses to `x`),
then at every other key `rateMap` reads as on the snapshot without the
record, and under `(t, s)` it has an entry, which is `x` when no later record
of the snapshot stores a rate under `(t, s)` and is the entry of the snapshot
without the record when a later record does. -/
theorem C7_incomplete_records (h : HitbtcApi F) (pre post : List Json) (v : Json)
    (hok : (fetchRate ParseFloat h (Response.children (pre ++ v :: post))).2 = Exit.ok) :
    ((v.pathString "symbol".toList = none ∨ v.pathString "last".toList = none) →
      fetchRate ParseFloat h (Response.children (pre ++ post))
        = fetchRate ParseFloat h (Response.children (pre ++ v :: post))) ∧
    (v.pathString "volume".toList = none →
      (fetchRate ParseFloat h (Response.children (pre ++ post))).2 = Exit.ok ∧
      (fetchRate ParseFloat h (Response.children (pre ++ post))).1.volumeMap
        = (fetchRate ParseFloat h (Response.children (pre ++ v :: post))).1.volumeMap) ∧
    (v.pathString "volume".toList = none →
      ∀ pair t s last x, v.pathString "symbol".toList = some pair →
        splitSymbol h.settlements pair = Split.pair t s →
        v.pathString "last".toList = some last → ParseFloat last = some x →
        mapGet2 (fetchRate ParseFloat h (Response.children (pre ++ v :: post))).1.rateMap t s
          ≠ none) ∧
    (v.pathString "volume".toList = none →
      (∀ t s x, ¬ StoresRate ParseFloat h.settlements v t s x) →
      fetchRate ParseFloat h (Response.children (pre ++ post))
        = fetchRate ParseFloat h (Response.children (pre ++ v :: post))) ∧
    (v.pathString "volume".toList = none →
      ∀ t s, (∀ x, ¬ StoresRate ParseFloat h.settlements v t s x) →
        mapGet2 (fetchRate ParseFloat h (Response.children (pre ++ v :: post))).1.rateMap t s
          = mapGet2 (fetchRate ParseFloat h (Response.children (pre ++ post))).1.rateMap t s) ∧
    (v.pathString "volume".toList = none →
      ∀ t s x, StoresRate ParseFloat h.settlements v t s x →
        ((∀ w ∈ post, ∀ y, ¬ StoresRate ParseFloat h.settlements w t s y) →
          mapGet2 (fetchRate ParseFloat h (Response.children (pre ++ v :: post))).1.rateMap t s
            = some x) ∧
        ((∃ w ∈ post, ∃ y, StoresRate ParseFloat h.settlements w t s y) →
          mapGet2 (fetchRate ParseFloat h (Response.children (pre ++ v :: post))).1.rateMap t s
            = mapGet2 (fetchRate ParseFloat h (Response.children (pre ++ post))).1.rateMap t s)) := by
  simp only [fetchRate_children] at hok ⊢
  generalize hh0 : ({ h with rateMap := [], volumeMap := [] } : HitbtcApi F) = h0 at hok ⊢
  have hset0 : h0.settlements = h.settlements := by rw [← hh0]
  rcases hp : tickerLoop ParseFloat pre h0 with ⟨hp1, e1⟩
  have he1 : e1 = Exit.ok := by
    by_contra hne
    rw [tickerLoop_append_stop ParseFloat pre (v :: post) h0 hp1 e1 hp hne] at hok
    exact hne hok
  subst he1
  have hsetp : hp1.settlements = h.settlements := by
    have := (tickerLoop_frame ParseFloat pre h0).2.1
    rw [hp] at this
    exact this.trans hset0
  rw [tickerLoop_append_ok ParseFloat pre (v :: post) h0 hp1 hp] at hok ⊢
  rw [tickerLoop_append_ok ParseFloat pre post h0 hp1 hp]
  rcases hs : tickerStep ParseFloat hp1 v with ⟨h2, e2⟩
  have he2 : e2 = Exit.ok := by
    by_contra hne
    rw [tickerLoop_cons_stop ParseFloat v post hp1 h2 e2 hs hne] at hok
    exact hne hok
  subst he2
  rw [tickerLoop_cons_ok ParseFloat v post hp1 h2 hs] at hok ⊢
  have hst : h2.settlements = hp1.settlements := by
    have := (tickerStep_frame ParseFloat hp1 v).2.1
    rw [hs] at this
    exact this
  have hvmOf : v.pathString "volume".toList = none → h2.volumeMap = hp1.volumeMap := by
    intro hvol
    have := tickerStep_no_volume ParseFloat hp1 v hvol
    rw [hs] at this
    exact this
  have hrate := tickerStep_rate ParseFloat hp1 v
  rw [hs, hsetp] at hrate
  simp only at hrate
  refine ⟨?_, ?_, ?_, ?_, ?_, ?_⟩
  · rintro (hsym | hlast)
    · have := tickerStep_no_symbol ParseFloat hp1 v hsym
      rw [hs] at this
      simp only [Prod.mk.injEq, and_true] at this
      rw [this]
    · rcases tickerStep_no_last ParseFloat hp1 v hlast with hc | hc
      · rw [hs] at hc
        simp only [Prod.mk.injEq, and_true] at hc
        rw [hc]
      · rw [hs] at hc
        simp only [Prod.mk.injEq] at hc
        exact absurd hc.2 (by decide)
  · intro hvol
    have hvm : h2.volumeMap = hp1.volumeMap := by
      have := tickerStep_no_volume ParseFloat hp1 v hvol
      rw [hs] at this
      exact this
    have hst : h2.settlements = hp1.settlements := by
      have := (tickerStep_frame ParseFloat hp1 v).2.1
      rw [hs] at this
      exact this
    obtain ⟨hE, hV⟩ := tickerLoop_volume_indep ParseFloat post hp1 h2 hst.symm hvm.symm
    exact ⟨hE.trans hok, hV⟩
  · intro hvol pair t s last x hsym hsplit hlast hx
    have hstep := tickerStep_rate_only ParseFloat hp1 v pair t s last x hsym
      (by rw [hsetp]; exact hsplit) hlast hx hvol
    rw [hs] at hstep
    simp only [Prod.mk.injEq, and_true] at hstep
    apply tickerLoop_rate_mono
    rw [hstep]
    simp only
    rw [mapGet2_mapSet2]
    simp
  · intro hvol hns
    have hr : h2.rateMap = hp1.rateMap := by
      rcases hrate with ⟨t1, s1, x1, hst1, _⟩ | ⟨_, hr⟩
      · exact absurd hst1 (hns t1 s1 x1)
      · exact hr
    have hfr := tickerStep_frame ParseFloat hp1 v
    rw [hs] at hfr
    simp only at hfr
    rw [HitbtcApi.eq_of_fields h2 hp1 (hvmOf hvol) hr hfr.1 hfr.2.1 hfr.2.2]
  · intro hvol t s hns
    apply tickerLoop_rate_agree ParseFloat post h2 hp1 t s hst (hvmOf hvol)
    rcases hrate with ⟨t1, s1, x1, hst1, hr⟩ | ⟨_, hr⟩
    · have hk : ¬ (t1 = t ∧ s1 = s) := by
        rintro ⟨e1, e2⟩
        subst e1
        subst e2
        exact hns x1 hst1
      rw [hr, mapGet2_mapSet2, if_neg hk]
    · rw [hr]
  · intro hvol t s x hstv
    have hr : h2.rateMap = mapSet2 hp1.rateMap t s x := by
      rcases hrate with ⟨t1, s1, x1, hst1, hr⟩ | ⟨hno, _⟩
      · obtain ⟨e1, e2, e3⟩ := storesRate_unique ParseFloat _ v t1 s1 t s x1 x hst1 hstv
        subst e1
        subst e2
        subst e3
        exact hr
      · exact absurd hstv (hno t s x)
    have hset2 : h2.settlements = h.settlements := hst.trans hsetp
    constructor
    · intro hno
      apply tickerLoop_rate_keeps ParseFloat post h2 t s x
      · intro w hw y
        rw [hset2]
        exact hno w hw y
      · rw [hr, mapGet2_mapSet2]
        simp
    · intro hex
      apply tickerLoop_rate_overwritten ParseFloat post h2 hp1 t s hst (hvmOf hvol) _ hok
      obtain ⟨w, hw, y, hy⟩ := hex
      exact ⟨w, hw, y, by rw [hset2]; exact hy⟩

end

/-- C7, the counterexample: the record BTCUSD has no `volume`; `fetchRate`
returns `nil` on the snapshot that holds it and stores its rate, so `rateMap`
is not the (empty) `rateMap` of the snapshot without the record. -/
theorem C7_counterexample :
    (tickerNoVolume "BTCUSD" "7").pathString "volume".toList = none ∧
    (fetchRate sampleParseFloat (sampleApi ["USD"])
      (Response.children [tickerNoVolume "BTCUSD" "7"])).2 = Exit.ok ∧
    (fetchRate sampleParseFloat (sampleApi ["USD"]) (Response.children [])).2 = Exit.ok ∧
    (fetchRate sampleParseFloat (sampleApi ["USD"])
      (Response.children [tickerNoVolume "BTCUSD" "7"])).1.rateMap
        = [("BTC".toList, [("USD".toList, 7)])] ∧
    (fetchRate sampleParseFloat (sampleApi ["USD"]) (Response.children [])).1.rateMap = [] ∧
    (fetchRate sampleParseFloat (sampleApi ["USD"])
      (Response.children [tickerNoVolume "BTCUSD" "7"])).1.rateMap
        ≠ (fetchRate sampleParseFloat (sampleApi ["USD"]) (Response.children [])).1.rateMap := by
  refine ⟨by decide, by decide, by decide, by decide, by decide, by decide⟩

/-- C7 (amended) on the snapshot [ETHUSD, BTCUSD without `volume`, LTCUSD]:
`volumeMap` is that of [ETHUSD, LTCUSD], `rateMap` holds 7 under BTC/USD and
reads under ETH/USD as on [ETHUSD, LTCUSD]. -/
theorem C7_incomplete_records_witness :
    (fetchRate sampleParseFloat (sampleApi ["USD"])
      (Response.children ([tickerRecord "ETHUSD" "3" "4"] ++
        tickerNoVolume "BTCUSD" "7" :: [tickerRecord "LTCUSD" "5" "6"]))).2 = Exit.ok ∧
    (fetchRate sampleParseFloat (sampleApi ["USD"])
      (Response.children ([tickerRecord "ETHUSD" "3" "4"] ++ [tickerRecord "LTCUSD" "5" "6"]))).1.volumeMap
      = (fetchRate sampleParseFloat (sampleApi ["USD"])
          (Response.children ([tickerRecord "ETHUSD" "3" "4"] ++
            tickerNoVolume "BTCUSD" "7" :: [tickerRecord "LTCUSD" "5" "6"]))).1.volumeMap ∧
    mapGet2 (fetchRate sampleParseFloat (sampleApi ["USD"])
      (Response.children ([tickerRecord "ETHUSD" "3" "4"] ++
        tickerNoVolume "BTCUSD" "7" :: [tickerRecord "LTCUSD" "5" "6"]))).1.rateMap
      "BTC".toList "USD".toList ≠ none ∧
    mapGet2 (fetchRate sampleParseFloat (sampleApi ["USD"])
      (Response.children ([tickerRecord "ETHUSD" "3" "4"] ++
        tickerNoVolume "BTCUSD" "7" :: [tickerRecord "LTCUSD" "5" "6"]))).1.rateMap
      "BTC".toList "USD".toList = some 7 ∧
    mapGet2 (fetchRate sampleParseFloat (sampleApi ["USD"])
      (Response.children ([tickerRecord "ETHUSD" "3" "4"] ++
        tickerNoVolume "BTCUSD" "7" :: [tickerRecord "LTCUSD" "5" "6"]))).1.rateMap
      "ETH".toList "USD".toList
      = mapGet2 (fetchRate sampleParseFloat (sampleApi ["USD"])
          (Response.children ([tickerRecord "ETHUSD" "3" "4"] ++
            [tickerRecord "LTCUSD" "5" "6"]))).1.rateMap
          "ETH".toList "USD".toList :=
  have key := C7_incomplete_records sampleParseFloat (sampleApi ["USD"])
    [tickerRecord "ETHUSD" "3" "4"] [tickerRecord "LTCUSD" "5" "6"]
    (tickerNoVolume "BTCUSD" "7") (by decide)
  have hstores : StoresRate sampleParseFloat (sampleApi ["USD"]).settlements
      (tickerNoVolume "BTCUSD" "7") "BTC".toList "USD".toList 7 :=
    ⟨"BTCUSD".toList, "7".toList, by decide, by decide, by decide, by decide⟩
  have hlater : ∀ w ∈ [tickerRecord "LTCUSD" "5" "6"], ∀ y : Int,
      ¬ StoresRate sampleParseFloat (sampleApi ["USD"]).settlements w
        "BTC".toList "USD".toList y := by
    rintro w hw y ⟨pair, last, hsym, hsp, _, _⟩
    rw [List.mem_singleton] at hw
    subst hw
    have h2 : (tickerRecord "LTCUSD" "5" "6").pathString "symbol".toList
        = some "LTCUSD".toList := by decide
    rw [h2] at hsym
    cases hsym
    exact absurd hsp (by decide)
  have hother : ∀ x : Int,
      ¬ StoresRate sampleParseFloat (sampleApi ["USD"]).settlements
        (tickerNoVolume "BTCUSD" "7") "ETH".toList "USD".toList x := by
    rintro x ⟨pair, last, hsym, hsp, _, _⟩
    have h2 : (tickerNoVolume "BTCUSD" "7").pathString "symbol".toList
        = some "BTCUSD".toList := by decide
    rw [h2] at hsym
    cases hsym
    exact absurd hsp (by decide)
  ⟨by decide, (key.2.1 (by decide)).2,
    key.2.2.1 (by decide) "BTCUSD".toList "BTC".toList "USD".toList "7".toList 7
      (by decide) (by decide) (by decide) (by decide),
    (key.2.2.2.2.2 (by decide) "BTC".toList "USD".toList 7 hstores).1 hlater,
    key.2.2.2.2.1 (by decide) "ETH".toList "USD".toList hother⟩

/-- The rate of a record without `volume` when a later record has the same
symbol: on [BTCUSD without `volume` and `last` 7, BTCUSD with `last` 8] the
entry under BTC/USD is 8, as on the snapshot without the first record. -/
theorem incomplete_record_overwritten :
    mapGet2 (fetchRate sampleParseFloat (sampleApi ["USD"])
      (Response.children [tickerNoVolume "BTCUSD" "7", tickerRecord "BTCUSD" "8" "9"])).1.rateMap
      "BTC".toList "USD".toList = some 8 ∧
    mapGet2 (fetchRate sampleParseFloat (sampleApi ["USD"])
      (Response.children [tickerRecord "BTCUSD" "8" "9"])).1.rateMap
      "BTC".toList "USD".toList = some 8 := by
  refine ⟨by decide, by decide⟩

/-! ## Malformed numeric text -/

/-- The split panics exactly when some settlement code is one character
longer than the symbol. -/
theorem splitSymbol_eq_panic_iff (S : List GoString) (pair : GoString) :
    splitSymbol S pair = Split.panic ↔ ∃ s ∈ S, s.length = pair.length + 1 := by
  rw [← splitLoop_eq_none_iff pair S ([], [])]
  unfold splitSymbol
  cases splitLoop pair S ([], []) with
  | none => simp
  | some r =>
    obtain ⟨a, b⟩ := r
    simp only
    split <;> simp

/-- A symbol that no settlement code matches is skipped, unless the split panics. -/
theorem splitSymbol_skip_of_no_match (S : List GoString) (pair : GoString)
    (hno : ∀ s ∈ S, ¬ Matches pair s) (hlen : ∀ s ∈ S, s.length ≠ pair.length + 1) :
    splitSymbol S pair = Split.skip := by
  unfold splitSymbol
  rw [splitLoop_no_match pair S _ hno hlen]
  simp

section
variable {F : Type} (ParseFloat : GoString → Option F)

/-- A turn of the loop returns an error exactly on a malformed record. -/
theorem tickerStep_err_iff (h : HitbtcApi F) (v : Json) :
    (∃ e, (tickerStep ParseFloat h v).2 = Exit.err e) ↔ Malformed ParseFloat h.settlements v := by
  unfold tickerStep Malformed
  cases v.pathString "symbol".toList with
  | none => simp
  | some pair =>
    simp only
    cases hsp : splitSymbol h.settlements pair with
    | panic => simp [hsp]
    | skip => simp [hsp]
    | pair t s =>
      simp only
      cases v.pathString "last".toList with
      | none => simp [hsp]
      | some last =>
        simp only
        cases hl : ParseFloat last with
        | none => simp [hsp, hl]
        | some lastf =>
          simp only
          cases v.pathString "volume".toList with
          | none => simp [hsp, hl]
          | some volume =>
            simp only
            cases hv : ParseFloat volume with
            | none => simp [hsp, hl, hv]
            | some volumef => simp [hsp, hl, hv]

/-- A turn of the loop panics exactly when the split of the record's symbol does. -/
theorem tickerStep_panic_iff (h : HitbtcApi F) (v : Json) :
    (tickerStep ParseFloat h v).2 = Exit.panic ↔
      ∃ pair, v.pathString "symbol".toList = some pair ∧
        splitSymbol h.settlements pair = Split.panic := by
  unfold tickerStep
  cases v.pathString "symbol".toList with
  | none => simp
  | some pair =>
    simp only
    cases hsp : splitSymbol h.settlements pair with
    | panic => simp [hsp]
    | skip => simp [hsp]
    | pair t s =>
      simp only
      repeat' split
      all_goals simp [hsp]

/-- When no split panics, the loop returns an error exactly when the ticker
holds a malformed record. -/
theorem tickerLoop_err_iff (vs : List Json) (h : HitbtcApi F)
    (hnp : ∀ v ∈ vs, ∀ pair, v.pathString "symbol".toList = some pair →
      splitSymbol h.settlements pair ≠ Split.panic) :
    (∃ e, (tickerLoop ParseFloat vs h).2 = Exit.err e) ↔
      ∃ v ∈ vs, Malformed ParseFloat h.settlements v := by
  induction vs generalizing h with
  | nil => simp [tickerLoop]
  | cons v rest ih =>
    have hstepE := tickerStep_err_iff ParseFloat h v
    have hstepP := tickerStep_panic_iff ParseFloat h v
    have hfr := (tickerStep_frame ParseFloat h v).2.1
    rcases hs : tickerStep ParseFloat h v with ⟨h2, e⟩
    rw [hs] at hstepE hstepP hfr
    simp only at hstepE hstepP hfr
    cases e with
    | ok =>
      rw [tickerLoop_cons_ok ParseFloat v rest h h2 hs]
      have hnot : ¬ Malformed ParseFloat h.settlements v := by
        intro hm
        obtain ⟨e, he⟩ := hstepE.mpr hm
        cases he
      rw [ih h2 (fun w hw pair hp => by rw [hfr]; exact hnp w (List.mem_cons_of_mem _ hw) pair hp),
        hfr]
      simp [hnot]
    | err e =>
      rw [tickerLoop_cons_stop ParseFloat v rest h h2 _ hs (by simp)]
      have hm : Malformed ParseFloat h.settlements v := hstepE.mp ⟨e, rfl⟩
      constructor
      · intro _
        exact ⟨v, List.mem_cons_self _ _, hm⟩
      · intro _
        exact ⟨e, rfl⟩
    | panic =>
      obtain ⟨pair, hp, hpanic⟩ := hstepP.mp rfl
      exact absurd hpanic (hnp v (List.mem_cons_self _ _) pair hp)

/-- On a ticker none of whose symbols is one character shorter than a
settlement code (so that no split panics), `fetchRate` returns an error
exactly when some record is malformed. -/
theorem fetchRate_err_iff_of_no_panic (h : HitbtcApi F) (vs : List Json)
    (hlen : ∀ v ∈ vs, ∀ pair, v.pathString "symbol".toList = some pair →
      ∀ s ∈ h.settlements, s.length ≠ pair.length + 1) :
    (∃ e, (fetchRate ParseFloat h (Response.children vs)).2 = Exit.err e) ↔
      ∃ v ∈ vs, Malformed ParseFloat h.settlements v := by
  rw [fetchRate_children]
  apply tickerLoop_err_iff
  intro v hv pair hp hpanic
  obtain ⟨s, hs, hbad⟩ := (splitSymbol_eq_panic_iff _ pair).mp hpanic
  exact hlen v hv pair hp s hs hbad

end

/-- C8 (code bug).  The claim says that `fetchRate` returns an error whenever
some record is malformed.  With the settlement "USDT", the record ETHUSDT of
the ticker [BTC, ETHUSDT] is malformed (its symbol splits and its `last` "x"
does not parse), and `fetchRate` returns no error: it panics at the record
BTC, whose symbol is one character shorter than "USDT".  Without the record
BTC it returns the error. -/
theorem C8_malformed_text_after_panic :
    Malformed sampleParseFloat (sampleApi ["USDT"]).settlements (tickerRecord "ETHUSDT" "x" "2") ∧
    (fetchRate sampleParseFloat (sampleApi ["USDT"])
      (Response.children [tickerRecord "BTC" "1" "2", tickerRecord "ETHUSDT" "x" "2"])).2
        = Exit.panic ∧
    (¬ ∃ e, (fetchRate sampleParseFloat (sampleApi ["USDT"])
      (Response.children [tickerRecord "BTC" "1" "2", tickerRecord "ETHUSDT" "x" "2"])).2
        = Exit.err e) ∧
    (fetchRate sampleParseFloat (sampleApi ["USDT"])
      (Response.children [tickerRecord "ETHUSDT" "x" "2"])).2
        = Exit.err (Error.parseFloat "x".toList) := by
  have hpanic : (fetchRate sampleParseFloat (sampleApi ["USDT"])
      (Response.children [tickerRecord "BTC" "1" "2", tickerRecord "ETHUSDT" "x" "2"])).2
        = Exit.panic := by decide
  refine ⟨?_, hpanic, ?_, by decide⟩
  · exact ⟨"ETHUSDT".toList, "ETH".toList, "USDT".toList, by decide, by decide,
      Or.inl ⟨"x".toList, by decide, by decide⟩⟩
  · rintro ⟨e, he⟩
    rw [hpanic] at he
    cases he

/-! ## Construction -/

/-- C12 (code bug).  The claim says that `NewHitbtcApiUsingConfigFunc` returns
a non-nil error when `fetchSettlements` fails.  The result of the call
`api.fetchSettlements()` on line 40 is dropped and line 41 returns `api, nil`:
whatever the configuration function and however the discovery fails, the
constructor returns a `nil` error and an instance with no settlements, while
`fetchSettlements` did return an error. -/
theorem C12_discovery_failure_dropped {F : Type} (f : HitbtcApiConfig → HitbtcApiConfig)
    (resp : Response) :
    (NewHitbtcApiUsingConfigFunc f resp : HitbtcApi F × Option Error).2 = none ∧
    (∀ api : HitbtcApi F,
      (fetchSettlements api Response.getFailed).2
          = some (Error.fetch (publicApiUrl api "symbol".toList)) ∧
      (fetchSettlements api Response.readFailed).2
          = some (Error.fetch (publicApiUrl api "symbol".toList)) ∧
      (fetchSettlements api Response.parseFailed).2 = some Error.parseJson ∧
      (fetchSettlements api Response.noChildren).2 = some Error.parseJson) ∧
    (NewHitbtcApiUsingConfigFunc f Response.getFailed : HitbtcApi F × Option Error).1.settlements
      = [] ∧
    (NewHitbtcApiUsingConfigFunc f Response.readFailed : HitbtcApi F × Option Error).1.settlements
      = [] ∧
    (NewHitbtcApiUsingConfigFunc f Response.parseFailed : HitbtcApi F × Option Error).1.settlements
      = [] ∧
    (NewHitbtcApiUsingConfigFunc f Response.noChildren : HitbtcApi F × Option Error).1.settlements
      = [] := by
  refine ⟨rfl, ?_, rfl, rfl, rfl, rfl⟩
  intro api
  exact ⟨rfl, rfl, rfl, rfl⟩

/-- The failing input of C12: the default configuration and an `http.Get`
that fails.  The constructor returns a `nil` error; on the instance, a ticker
that holds BTCUSD yields no pair at all. -/
theorem construction_example :
    (NewHitbtcApiUsingConfigFunc id Response.getFailed : HitbtcApi Int × Option Error).2 = none ∧
    (CurrencyPairs sampleParseFloat
      (NewHitbtcApiUsingConfigFunc id Response.getFailed : HitbtcApi Int × Option Error).1
      (1700000000 * Second) (Response.children [tickerRecord "BTCUSD" "7" "9"])).ret
      = some ([], none) := by
  refine ⟨by decide, by decide⟩

/-! ## Wholesale replacement -/

section
variable {F : Type} (ParseFloat : GoString → Option F)

/-- A turn of the loop is determined by the settlements, the two maps and the record. -/
theorem tickerStep_cache_indep (h g : HitbtcApi F) (v : Json)
    (hs : h.settlements = g.settlements) (hrm : h.rateMap = g.rateMap)
    (hvm : h.volumeMap = g.volumeMap) :
    (tickerStep ParseFloat h v).2 = (tickerStep ParseFloat g v).2 ∧
    (tickerStep ParseFloat h v).1.rateMap = (tickerStep ParseFloat g v).1.rateMap ∧
    (tickerStep ParseFloat h v).1.volumeMap = (tickerStep ParseFloat g v).1.volumeMap := by
  unfold tickerStep
  rw [hs]
  cases v.pathString "symbol".toList with
  | none => exact ⟨rfl, hrm, hvm⟩
  | some pair =>
    simp only
    cases splitSymbol g.settlements pair with
    | panic => exact ⟨rfl, hrm, hvm⟩
    | skip => exact ⟨rfl, hrm, hvm⟩
    | pair t s =>
      simp only
      cases v.pathString "last".toList with
      | none => exact ⟨rfl, hrm, hvm⟩
      | some last =>
        simp only
        cases ParseFloat last with
        | none => exact ⟨rfl, hrm, hvm⟩
        | some lastf =>
          simp only
          cases v.pathString "volume".toList with
          | none => exact ⟨rfl, by rw [hrm], hvm⟩
          | some volume =>
            simp only
            cases ParseFloat volume with
            | none => exact ⟨rfl, by rw [hrm], hvm⟩
            | some volumef => exact ⟨rfl, by rw [hrm], by rw [hvm]⟩

/-- The loop is determined by the settlements, the two maps and the records. -/
theorem tickerLoop_cache_indep (vs : List Json) (h g : HitbtcApi F)
    (hs : h.settlements = g.settlements) (hrm : h.rateMap = g.rateMap)
    (hvm : h.volumeMap = g.volumeMap) :
    (tickerLoop ParseFloat vs h).2 = (tickerLoop ParseFloat vs g).2 ∧
    (tickerLoop ParseFloat vs h).1.rateMap = (tickerLoop ParseFloat vs g).1.rateMap ∧
    (tickerLoop ParseFloat vs h).1.volumeMap = (tickerLoop ParseFloat vs g).1.volumeMap := by
  induction vs generalizing h g with
  | nil => exact ⟨rfl, hrm, hvm⟩
  | cons v rest ih =>
    obtain ⟨he, hr, hv⟩ := tickerStep_cache_indep ParseFloat h g v hs hrm hvm
    have hfh := (tickerStep_frame ParseFloat h v).2.1
    have hfg := (tickerStep_frame ParseFloat g v).2.1
    rcases hsh : tickerStep ParseFloat h v with ⟨h2, e⟩
    rcases hsg : tickerStep ParseFloat g v with ⟨g2, e2⟩
    rw [hsh, hsg] at he hr hv
    rw [hsh] at hfh
    rw [hsg] at hfg
    simp only at he hr hv hfh hfg
    subst he
    by_cases hok : e = Exit.ok
    · subst hok
      rw [tickerLoop_cons_ok ParseFloat v rest h h2 hsh,
        tickerLoop_cons_ok ParseFloat v rest g g2 hsg]
      exact ih h2 g2 (by rw [hfh, hfg, hs]) hr hv
    · rw [tickerLoop_cons_stop ParseFloat v rest h h2 e hsh hok,
        tickerLoop_cons_stop ParseFloat v rest g g2 e hsg hok]
      exact ⟨rfl, hr, hv⟩

/-- The maps that `fetchRate` leaves, and how it ends, are determined by the
settlements and the response. -/
theorem fetchRate_cache_indep (h g : HitbtcApi F) (resp : Response)
    (hs : h.settlements = g.settlements) :
    (fetchRate ParseFloat h resp).2 = Exit.ok →
    (fetchRate ParseFloat g resp).2 = Exit.ok ∧
    (fetchRate ParseFloat h resp).1.rateMap = (fetchRate ParseFloat g resp).1.rateMap ∧
    (fetchRate ParseFloat h resp).1.volumeMap = (fetchRate ParseFloat g resp).1.volumeMap := by
  intro hok
  cases resp with
  | children vs =>
    rw [fetchRate_children] at hok ⊢
    rw [fetchRate_children]
    obtain ⟨he, hr, hv⟩ := tickerLoop_cache_indep ParseFloat vs
      { h with rateMap := [], volumeMap := [] } { g with rateMap := [], volumeMap := [] }
      hs rfl rfl
    exact ⟨he ▸ hok, hr, hv⟩
  | getFailed => cases hok
  | readFailed => cases hok
  | parseFailed => cases hok
  | noChildren => cases hok

/-- C13.  For two states with the same settlements and a response on which
`fetchRate` returns `nil` from the first, it returns `nil` from the second
with the same `rateMap` and the same `volumeMap`: the maps depend on the
snapshot and the settlements only.  So the maps are those that the refresh
builds from an emptied cache (no entry of the previous cache survives unless
the snapshot produces it), and a second refresh on the same response gives
the maps of the first. -/
theorem C13_refresh_replaces_cache (h g : HitbtcApi F) (resp : Response)
    (hs : h.settlements = g.settlements)
    (hok : (fetchRate ParseFloat h resp).2 = Exit.ok) :
    ((fetchRate ParseFloat g resp).2 = Exit.ok ∧
      (fetchRate ParseFloat g resp).1.rateMap = (fetchRate ParseFloat h resp).1.rateMap ∧
      (fetchRate ParseFloat g resp).1.volumeMap = (fetchRate ParseFloat h resp).1.volumeMap) ∧
    ((fetchRate ParseFloat { h with rateMap := [], volumeMap := [] } resp).1.rateMap
        = (fetchRate ParseFloat h resp).1.rateMap ∧
      (fetchRate ParseFloat { h with rateMap := [], volumeMap := [] } resp).1.volumeMap
        = (fetchRate ParseFloat h resp).1.volumeMap) ∧
    ((fetchRate ParseFloat (fetchRate ParseFloat h resp).1 resp).2 = Exit.ok ∧
      (fetchRate ParseFloat (fetchRate ParseFloat h resp).1 resp).1.rateMap
        = (fetchRate ParseFloat h resp).1.rateMap ∧
      (fetchRate ParseFloat (fetchRate ParseFloat h resp).1 resp).1.volumeMap
        = (fetchRate ParseFloat h resp).1.volumeMap) := by
  obtain ⟨a1, a2, a3⟩ := fetchRate_cache_indep ParseFloat h g resp hs hok
  obtain ⟨_, b2, b3⟩ := fetchRate_cache_indep ParseFloat h
    { h with rateMap := [], volumeMap := [] } resp rfl hok
  obtain ⟨c1, c2, c3⟩ := fetchRate_cache_indep ParseFloat h (fetchRate ParseFloat h resp).1 resp
    (fetchRate_frame ParseFloat h resp).2.1.symm hok
  exact ⟨⟨a1, a2.symm, a3.symm⟩, ⟨b2.symm, b3.symm⟩, ⟨c1, c2.symm, c3.symm⟩⟩

end

/-- C13 at a cache that holds BTC/USD and a freshly constructed state, both
with the settlement "USD", on a ticker that holds ETHUSD only: both end with
ETH/USD alone in the maps. -/
theorem C13_refresh_replaces_cache_witness :
    (cachedApi 0).settlements = (sampleApi ["USD"]).settlements ∧
    (fetchRate sampleParseFloat (cachedApi 0)
      (Response.children [tickerRecord "ETHUSD" "3" "4"])).2 = Exit.ok ∧
    (fetchRate sampleParseFloat (sampleApi ["USD"])
      (Response.children [tickerRecord "ETHUSD" "3" "4"])).1.rateMap
      = (fetchRate sampleParseFloat (cachedApi 0)
          (Response.children [tickerRecord "ETHUSD" "3" "4"])).1.rateMap ∧
    (fetchRate sampleParseFloat (cachedApi 0)
      (Response.children [tickerRecord "ETHUSD" "3" "4"])).1.rateMap
      = [("ETH".toList, [("USD".toList, 3)])] ∧
    (fetchRate sampleParseFloat (cachedApi 0)
      (Response.children [tickerRecord "ETHUSD" "3" "4"])).1.volumeMap
      = [("ETH".toList, [("USD".toList, 4)])] :=
  have key := C13_refresh_replaces_cache sampleParseFloat (cachedApi 0) (sampleApi ["USD"])
    (Response.children [tickerRecord "ETHUSD" "3" "4"]) (by decide) (by decide)
  ⟨by decide, by decide, key.1.2.1, by decide, by decide⟩

/-! ## Cached keys -/

/-- What the inner loop ends with is what it started with, or a matching code
of the list and the symbol without it. -/
theorem splitLoop_some_spec (pair : GoString) (S : List GoString) (acc : GoString × GoString)
    (s t : GoString) (h : splitLoop pair S acc = some (s, t)) :
    (s, t) = acc ∨ (s ∈ S ∧ Matches pair s ∧ t = pair.take (pair.length - s.length)) := by
  induction S generalizing acc with
  | nil =>
    simp only [splitLoop, Option.some.injEq] at h
    exact Or.inl h.symm
  | cons x rest ih =>
    rw [splitLoop_cons] at h
    by_cases hbad : x.length = pair.length + 1
    · rw [if_pos hbad] at h
      cases h
    · rw [if_neg hbad] at h
      by_cases hm : Matches pair x
      · rw [if_pos hm] at h
        rcases ih _ h with heq | ⟨hmem, hms, ht⟩
        · simp only [Prod.mk.injEq] at heq
          obtain ⟨h1, h2⟩ := heq
          subst h1
          exact Or.inr ⟨List.mem_cons_self _ _, hm, h2⟩
        · exact Or.inr ⟨List.mem_cons_of_mem _ hmem, hms, ht⟩
      · rw [if_neg hm] at h
        rcases ih _ h with heq | ⟨hmem, hms, ht⟩
        · exact Or.inl heq
        · exact Or.inr ⟨List.mem_cons_of_mem _ hmem, hms, ht⟩

/-- A pair that the split yields: neither part is empty, the settlement is one
of the list, and the two parts make up the symbol. -/
theorem splitSymbol_pair_spec (S : List GoString) (pair t s : GoString)
    (h : splitSymbol S pair = Split.pair t s) :
    t ≠ [] ∧ s ≠ [] ∧ s ∈ S ∧ t ++ s = pair := by
  unfold splitSymbol at h
  cases hl : splitLoop pair S ([], []) with
  | none =>
    rw [hl] at h
    cases h
  | some r =>
    obtain ⟨s2, t2⟩ := r
    rw [hl] at h
    simp only at h
    by_cases hempty : s2 = [] ∨ t2 = []
    · rw [if_pos hempty] at h
      cases h
    · rw [if_neg hempty] at h
      simp only [Split.pair.injEq] at h
      obtain ⟨ht, hs⟩ := h
      subst ht
      subst hs
      have hs2 : s2 ≠ [] := fun hc => hempty (Or.inl hc)
      have ht2 : t2 ≠ [] := fun hc => hempty (Or.inr hc)
      rcases splitLoop_some_spec pair S _ s2 t2 hl with heq | ⟨hmem, hm, htake⟩
      · simp only [Prod.mk.injEq] at heq
        exact absurd heq.1 hs2
      · refine ⟨ht2, hs2, hmem, ?_⟩
        obtain ⟨u, hu⟩ := hm.1
        subst hu
        rw [htake]
        simp

section
variable {F : Type} (ParseFloat : GoString → Option F)

/-- A turn of the loop on a record of the snapshot keeps the invariant of the cache. -/
theorem tickerStep_inv (S : List GoString) (all : List Json) (h : HitbtcApi F) (v : Json)
    (hv : v ∈ all) (hS : h.settlements = S) (hinv : CacheInv S all h) :
    CacheInv S all (tickerStep ParseFloat h v).1 := by
  unfold tickerStep
  cases hsym : v.pathString "symbol".toList with
  | none => exact hinv
  | some pair =>
    simp only
    cases hsp : splitSymbol h.settlements pair with
    | panic => exact hinv
    | skip => exact hinv
    | pair t0 s0 =>
      simp only
      obtain ⟨ht0, hs0, hmem0, hcat⟩ := splitSymbol_pair_spec h.settlements pair t0 s0 hsp
      have hgen0 : Genuine S all t0 s0 :=
        ⟨ht0, hs0, hS ▸ hmem0, v, hv, by rw [hsym, hcat]⟩
      have hrate : ∀ (x : F) (t s : GoString),
          mapGet2 (mapSet2 h.rateMap t0 s0 x) t s ≠ none → Genuine S all t s := by
        intro x t s hne
        rw [mapGet2_mapSet2] at hne
        by_cases hk : t0 = t ∧ s0 = s
        · obtain ⟨h1, h2⟩ := hk
          subst h1
          subst h2
          exact hgen0
        · rw [if_neg hk] at hne
          exact hinv.1 t s hne
      have hmono : ∀ (x : F) (t s : GoString),
          mapGet2 h.rateMap t s ≠ none → mapGet2 (mapSet2 h.rateMap t0 s0 x) t s ≠ none := by
        intro x t s hne
        rw [mapGet2_mapSet2]
        split
        · simp
        · exact hne
      cases v.pathString "last".toList with
      | none => exact hinv
      | some last =>
        simp only
        cases ParseFloat last with
        | none => exact hinv
        | some lastf =>
          simp only
          have hbase : CacheInv S all
              ({ h with rateMap := mapSet2 h.rateMap t0 s0 lastf } : HitbtcApi F) :=
            ⟨hrate lastf, fun t s hne => hmono lastf t s (hinv.2 t s hne)⟩
          cases v.pathString "volume".toList with
          | none => exact hbase
          | some volume =>
            simp only
            cases ParseFloat volume with
            | none => exact hbase
            | some volumef =>
              refine ⟨hrate lastf, ?_⟩
              intro t s hne
              simp only at hne ⊢
              rw [mapGet2_mapSet2] at hne
              by_cases hk : t0 = t ∧ s0 = s
              · rw [mapGet2_mapSet2, if_pos hk]
                simp
              · rw [if_neg hk] at hne
                exact hmono lastf t s (hinv.2 t s hne)

/-- The loop over records of the snapshot keeps the invariant of the cache. -/
theorem tickerLoop_inv (S : List GoString) (all vs : List Json) (h : HitbtcApi F)
    (hvs : ∀ v ∈ vs, v ∈ all) (hS : h.settlements = S) (hinv : CacheInv S all h) :
    CacheInv S all (tickerLoop ParseFloat vs h).1 := by
  induction vs generalizing h with
  | nil => exact hinv
  | cons v rest ih =>
    have hstep := tickerStep_inv ParseFloat S all h v (hvs v (List.mem_cons_self _ _)) hS hinv
    have hfr := (tickerStep_frame ParseFloat h v).2.1
    rcases hsh : tickerStep ParseFloat h v with ⟨h2, e⟩
    rw [hsh] at hstep hfr
    simp only at hstep hfr
    by_cases hok : e = Exit.ok
    · subst hok
      rw [tickerLoop_cons_ok ParseFloat v rest h h2 hsh]
      exact ih h2 (fun w hw => hvs w (List.mem_cons_of_mem _ hw)) (hfr.trans hS) hstep
    · rw [tickerLoop_cons_stop ParseFloat v rest h h2 e hsh hok]
      exact hstep

/-- C14.  After `fetchRate` on a snapshot, however it ends, every key `(t, s)`
of `rateMap` and of `volumeMap` is a genuine split of a symbol: `t` and `s`
are not empty, `s` is one of the settlements, and `t` followed by `s` is the
`symbol` of some record of the snapshot; and every key of `volumeMap` is a
key of `rateMap`. -/
theorem C14_cached_keys_genuine (h : HitbtcApi F) (snapshot : List Json) (t s : GoString) :
    (mapGet2 (fetchRate ParseFloat h (Response.children snapshot)).1.rateMap t s ≠ none →
      Genuine h.settlements snapshot t s) ∧
    (mapGet2 (fetchRate ParseFloat h (Response.children snapshot)).1.volumeMap t s ≠ none →
      Genuine h.settlements snapshot t s ∧
      mapGet2 (fetchRate ParseFloat h (Response.children snapshot)).1.rateMap t s ≠ none) := by
  rw [fetchRate_children]
  have hinv0 : CacheInv h.settlements snapshot
      ({ h with rateMap := [], volumeMap := [] } : HitbtcApi F) :=
    ⟨fun t s hne => absurd rfl hne, fun t s hne => absurd rfl hne⟩
  have hinv := tickerLoop_inv ParseFloat h.settlements snapshot snapshot
    ({ h with rateMap := [], volumeMap := [] } : HitbtcApi F) (fun v hv => hv) rfl hinv0
  exact ⟨hinv.1 t s, fun hne => ⟨hinv.1 t s (hinv.2 t s hne), hinv.2 t s hne⟩⟩

end

/-- The maps of C14 on a snapshot of three records with the settlements "USD"
and "BTC": ETHBTC and LTCUSD (without `volume`) are split, XRPEUR is not. -/
theorem cached_keys_example :
    (fetchRate sampleParseFloat (sampleApi ["USD", "BTC"])
      (Response.children [tickerRecord "ETHBTC" "3" "4", tickerNoVolume "LTCUSD" "5",
        tickerRecord "XRPEUR" "1" "2"])).1.rateMap
      = [("ETH".toList, [("BTC".toList, 3)]), ("LTC".toList, [("USD".toList, 5)])] ∧
    (fetchRate sampleParseFloat (sampleApi ["USD", "BTC"])
      (Response.children [tickerRecord "ETHBTC" "3" "4", tickerNoVolume "LTCUSD" "5",
        tickerRecord "XRPEUR" "1" "2"])).1.volumeMap
      = [("ETH".toList, [("BTC".toList, 4)])] := by
  refine ⟨by decide, by decide⟩

/-! ## The listing -/

theorem mapKeys_cons {V : Type} (k : GoString) (v : V) (m : GoMap V) :
    mapKeys ((k, v) :: m) = k :: mapKeys m := rfl

theorem mapGet_ne_none_iff {V : Type} (m : GoMap V) (k : GoString) :
    mapGet m k ≠ none ↔ k ∈ mapKeys m := by
  induction m with
  | nil =>
    constructor
    · intro h
      exact absurd rfl h
    · intro h
      cases h
  | cons kv m ih =>
    obtain ⟨k0, v0⟩ := kv
    rw [mapKeys_cons, List.mem_cons]
    by_cases h0 : k0 = k
    · simp only [mapGet, if_pos h0]
      constructor
      · intro _
        exact Or.inl h0.symm
      · intro _ hc
        cases hc
    · simp only [mapGet, if_neg h0]
      rw [ih]
      constructor
      · intro h
        exact Or.inr h
      · rintro (h | h)
        · exact absurd h.symm h0
        · exact h

theorem mapGet_some_mem {V : Type} (m : GoMap V) (k : GoString) (v : V)
    (h : mapGet m k = some v) : (k, v) ∈ m := by
  induction m with
  | nil => simp [mapGet] at h
  | cons kv m ih =>
    obtain ⟨k0, v0⟩ := kv
    by_cases h0 : k0 = k
    · simp only [mapGet, if_pos h0, Option.some.injEq] at h
      subst h0
      subst h
      exact List.mem_cons_self _ _
    · simp only [mapGet, if_neg h0] at h
      exact List.mem_cons_of_mem _ (ih h)

theorem mem_mapKeys_of_mem {V : Type} (m : GoMap V) (k : GoString) (v : V) (h : (k, v) ∈ m) :
    k ∈ mapKeys m :=
  List.mem_map.mpr ⟨(k, v), h, rfl⟩

theorem mapGet_of_mem {V : Type} (m : GoMap V) (hm : IsMap m) (k : GoString) (v : V)
    (h : (k, v) ∈ m) : mapGet m k = some v := by
  induction m with
  | nil => simp at h
  | cons kv m ih =>
    obtain ⟨k0, v0⟩ := kv
    have hnd : k0 ∉ mapKeys m ∧ IsMap m := by
      have := hm
      simp only [IsMap, mapKeys, List.map_cons, List.nodup_cons] at this
      exact this
    rcases List.mem_cons.mp h with heq | hmem
    · simp only [Prod.mk.injEq] at heq
      obtain ⟨h1, h2⟩ := heq
      subst h1
      subst h2
      simp [mapGet]
    · have hk : k ∈ mapKeys m := mem_mapKeys_of_mem m k v hmem
      have h0 : ¬ k0 = k := fun e => hnd.1 (e ▸ hk)
      simp only [mapGet, if_neg h0]
      exact ih hnd.2 hmem

theorem mem_listPairs {V : Type} (m : GoMap (GoMap V)) (t s : GoString) :
    ({ Trading := t, Settlement := s } : CurrencyPair) ∈ listPairs m ↔
      ∃ inner, (t, inner) ∈ m ∧ s ∈ mapKeys inner := by
  unfold listPairs mapKeys
  simp only [List.mem_flatMap, List.mem_map, CurrencyPair.mk.injEq, Prod.exists]
  constructor
  · rintro ⟨t2, inner, hmem, s2, v, hin, h1, h2⟩
    subst h1
    subst h2
    exact ⟨inner, hmem, s2, v, hin, rfl⟩
  · rintro ⟨inner, hmem, s2, v, hin, h2⟩
    exact ⟨t, inner, hmem, s2, v, hin, rfl, h2⟩

/-- The listing of a Go map holds a pair exactly when the map has the entry. -/
theorem mem_listPairs_iff {V : Type} (m : GoMap (GoMap V)) (hm : IsMap m) (t s : GoString) :
    ({ Trading := t, Settlement := s } : CurrencyPair) ∈ listPairs m ↔ mapGet2 m t s ≠ none := by
  rw [mem_listPairs]
  unfold mapGet2
  constructor
  · rintro ⟨inner, hmem, hs⟩
    rw [mapGet_of_mem m hm t inner hmem]
    exact (mapGet_ne_none_iff inner s).mpr hs
  · intro hne
    cases hg : mapGet m t with
    | none =>
      rw [hg] at hne
      exact absurd rfl hne
    | some inner =>
      rw [hg] at hne
      exact ⟨inner, mapGet_some_mem m t inner hg, (mapGet_ne_none_iff inner s).mp hne⟩

/-- The listing of a Go map holds no pair twice. -/
theorem nodup_listPairs {V : Type} (m : GoMap (GoMap V)) (hm : IsMap2 m) :
    (listPairs m).Nodup := by
  induction m with
  | nil => simp [listPairs]
  | cons kv m ih =>
    obtain ⟨k0, inner⟩ := kv
    have hnd : k0 ∉ mapKeys m ∧ IsMap m := by
      have := hm.1
      simp only [IsMap, mapKeys, List.map_cons, List.nodup_cons] at this
      exact this
    have hinner : IsMap inner := hm.2 (k0, inner) (List.mem_cons_self _ _)
    have htail : IsMap2 m := ⟨hnd.2, fun kv hkv => hm.2 kv (List.mem_cons_of_mem _ hkv)⟩
    have hcons : listPairs ((k0, inner) :: m)
        = (mapKeys inner).map (fun s => ({ Trading := k0, Settlement := s } : CurrencyPair))
          ++ listPairs m := by
      simp [listPairs, mapKeys, List.flatMap_cons, List.map_map, Function.comp_def]
    rw [hcons, List.nodup_append]
    refine ⟨?_, ih htail, ?_⟩
    · apply List.Nodup.map _ hinner
      intro a b hab
      simp only [CurrencyPair.mk.injEq, true_and] at hab
      exact hab
    · intro p hp1 hp2
      obtain ⟨s, _, rfl⟩ := List.mem_map.mp hp1
      obtain ⟨inner2, hmem2, _⟩ := (mem_listPairs m k0 s).mp hp2
      exact hnd.1 (mem_mapKeys_of_mem m k0 inner2 hmem2)

/-- The listing has one pair per inner entry. -/
theorem length_listPairs {V : Type} (m : GoMap (GoMap V)) :
    (listPairs m).length = entryCount m := by
  induction m with
  | nil => simp [listPairs, entryCount]
  | cons kv m ih =>
    have hcons : listPairs (kv :: m)
        = kv.2.map (fun sv => ({ Trading := kv.1, Settlement := sv.1 } : CurrencyPair))
          ++ listPairs m := by
      simp [listPairs, List.flatMap_cons]
    rw [hcons, List.length_append, List.length_map, ih]
    simp [entryCount]

theorem mem_mapKeys_mapSet {V : Type} (m : GoMap V) (k k2 : GoString) (v : V) :
    k2 ∈ mapKeys (mapSet m k v) ↔ k2 = k ∨ k2 ∈ mapKeys m := by
  rw [← mapGet_ne_none_iff, ← mapGet_ne_none_iff, mapGet_mapSet]
  by_cases hk : k = k2
  · simp [hk]
  · have : ¬ k2 = k := fun e => hk e.symm
    simp [hk, this]

theorem mem_mapSet {V : Type} (m : GoMap V) (k : GoString) (v : V) (p : GoString × V)
    (h : p ∈ mapSet m k v) : p = (k, v) ∨ p ∈ m := by
  induction m with
  | nil =>
    simp only [mapSet, List.mem_singleton] at h
    exact Or.inl h
  | cons kv m ih =>
    obtain ⟨k0, v0⟩ := kv
    by_cases h0 : k0 = k
    · simp only [mapSet, if_pos h0, List.mem_cons] at h
      rcases h with h | h
      · exact Or.inl h
      · exact Or.inr (List.mem_cons_of_mem _ h)
    · simp only [mapSet, if_neg h0, List.mem_cons] at h
      rcases h with h | h
      · exact Or.inr (h ▸ List.mem_cons_self _ _)
      · rcases ih h with h | h
        · exact Or.inl h
        · exact Or.inr (List.mem_cons_of_mem _ h)

/-- A write keeps a Go map a Go map. -/
theorem isMap_mapSet {V : Type} (m : GoMap V) (hm : IsMap m) (k : GoString) (v : V) :
    IsMap (mapSet m k v) := by
  induction m with
  | nil => simp [mapSet, IsMap, mapKeys]
  | cons kv m ih =>
    obtain ⟨k0, v0⟩ := kv
    have hnd : k0 ∉ mapKeys m ∧ IsMap m := by
      have := hm
      simp only [IsMap, mapKeys, List.map_cons, List.nodup_cons] at this
      exact this
    by_cases h0 : k0 = k
    · subst h0
      simp only [mapSet, if_true]
      exact hm
    · simp only [mapSet, if_neg h0]
      have hnot : k0 ∉ mapKeys (mapSet m k v) := by
        rw [mem_mapKeys_mapSet]
        rintro (h | h)
        · exact h0 h
        · exact hnd.1 h
      have hih : (mapKeys (mapSet m k v)).Nodup := ih hnd.2
      show (mapKeys ((k0, v0) :: mapSet m k v)).Nodup
      simp only [mapKeys, List.map_cons, List.nodup_cons]
      exact ⟨hnot, hih⟩

/-- A two-level write keeps a two-level Go map one. -/
theorem isMap2_mapSet2 {V : Type} (m : GoMap (GoMap V)) (hm : IsMap2 m) (t s : GoString)
    (x : V) : IsMap2 (mapSet2 m t s x) := by
  unfold mapSet2
  cases hg : mapGet m t with
  | none =>
    simp only
    refine ⟨isMap_mapSet m hm.1 t _, ?_⟩
    intro kv hkv
    rcases mem_mapSet m t _ kv hkv with h | h
    · rw [h]
      exact isMap_mapSet [] (by simp [IsMap, mapKeys]) s x
    · exact hm.2 kv h
  | some inner =>
    simp only
    refine ⟨isMap_mapSet m hm.1 t _, ?_⟩
    intro kv hkv
    rcases mem_mapSet m t _ kv hkv with h | h
    · rw [h]
      exact isMap_mapSet inner (hm.2 (t, inner) (mapGet_some_mem m t inner hg)) s x
    · exact hm.2 kv h

section
variable {F : Type} (ParseFloat : GoString → Option F)

theorem tickerStep_isMap2 (h : HitbtcApi F) (v : Json) (hm : IsMap2 h.rateMap) :
    IsMap2 (tickerStep ParseFloat h v).1.rateMap := by
  unfold tickerStep
  repeat' split
  all_goals first | exact hm | exact isMap2_mapSet2 _ hm _ _ _

theorem tickerLoop_isMap2 (vs : List Json) (h : HitbtcApi F) (hm : IsMap2 h.rateMap) :
    IsMap2 (tickerLoop ParseFloat vs h).1.rateMap := by
  induction vs generalizing h with
  | nil => exact hm
  | cons v rest ih =>
    have hstep := tickerStep_isMap2 ParseFloat h v hm
    rcases hsh : tickerStep ParseFloat h v with ⟨h2, e⟩
    rw [hsh] at hstep
    by_cases hok : e = Exit.ok
    · subst hok
      rw [tickerLoop_cons_ok ParseFloat v rest h h2 hsh]
      exact ih h2 hstep
    · rw [tickerLoop_cons_stop ParseFloat v rest h h2 e hsh hok]
      exact hstep

/-- The `rateMap` that `fetchRate` leaves is a Go map at both levels. -/
theorem fetchRate_isMap2 (h : HitbtcApi F) (resp : Response) :
    IsMap2 (fetchRate ParseFloat h resp).1.rateMap := by
  have hnil : IsMap2 ([] : GoMap (GoMap F)) :=
    ⟨by simp [IsMap, mapKeys], fun kv hkv => by simp at hkv⟩
  cases resp with
  | children vs =>
    rw [fetchRate_children]
    exact tickerLoop_isMap2 ParseFloat vs _ hnil
  | getFailed => exact hnil
  | readFailed => exact hnil
  | parseFailed => exact hnil
  | noChildren => exact hnil

/-- C11.  When the refresh block ends well (the cache has not expired, or
`fetchRate` returned `nil`), `CurrencyPairs` returns a `nil` error and a list
that holds the pair `{Trading: t, Settlement: s}` exactly when `rateMap` has an
entry under `t` and then `s`; no pair occurs twice, the length of the list is
the total number of inner entries of `rateMap`, and the list is empty when
`rateMap` is.  The `rateMap` is that of the state after the refresh block,
which is the state after the call; the `rateMap` before the call is a Go
map (at most one entry per key at both levels). -/
theorem C11_pairs_enumerate_rate_map (h : HitbtcApi F) (now : Int) (resp : Response)
    (hmap : IsMap2 h.rateMap)
    (hfresh : ¬ Time.Sub now h.rateLastUpdated ≥ h.c.RateCacheDuration ∨
      (fetchRate ParseFloat h resp).2 = Exit.ok) :
    (CurrencyPairs ParseFloat h now resp).api = (refresh ParseFloat h now resp).1 ∧
    ∃ pairs, (CurrencyPairs ParseFloat h now resp).ret = some (pairs, none) ∧
      (∀ t s, ({ Trading := t, Settlement := s } : CurrencyPair) ∈ pairs ↔
        mapGet2 (CurrencyPairs ParseFloat h now resp).api.rateMap t s ≠ none) ∧
      pairs.Nodup ∧
      pairs.length = entryCount (CurrencyPairs ParseFloat h now resp).api.rateMap ∧
      ((CurrencyPairs ParseFloat h now resp).api.rateMap = [] → pairs = []) := by
  obtain ⟨h1, n, hrf, hsame, hnew⟩ := refresh_of_fresh_or_ok ParseFloat h now resp hfresh
  have hwf : IsMap2 h1.rateMap := by
    by_cases hexp : Time.Sub now h.rateLastUpdated ≥ h.c.RateCacheDuration
    · rw [hnew hexp]
      exact fetchRate_isMap2 ParseFloat h resp
    · rw [hsame hexp]
      exact hmap
  have hcp : CurrencyPairs ParseFloat h now resp
      = { api := h1, ret := some (listPairs h1.rateMap, none), fetches := n } := by
    unfold CurrencyPairs
    rw [hrf]
  rw [hcp, hrf]
  refine ⟨rfl, listPairs h1.rateMap, rfl, ?_, nodup_listPairs _ hwf, length_listPairs _, ?_⟩
  · intro t s
    exact mem_listPairs_iff _ hwf.1 t s
  · intro hnil
    simp only at hnil
    rw [hnil]
    rfl

end

/-- C11 at a cache that holds BTC/USD and has not expired: the list is the
one pair BTC/USD. -/
theorem C11_pairs_enumerate_rate_map_witness :
    IsMap2 (cachedApi 0).rateMap ∧
    (¬ Time.Sub (20 * Second) (cachedApi 0).rateLastUpdated ≥ (cachedApi 0).c.RateCacheDuration ∨
      (fetchRate sampleParseFloat (cachedApi 0) Response.getFailed).2 = Exit.ok) ∧
    (CurrencyPairs sampleParseFloat (cachedApi 0) (20 * Second) Response.getFailed).ret
      = some ([{ Trading := "BTC".toList, Settlement := "USD".toList }], none) ∧
    (∃ pairs, (CurrencyPairs sampleParseFloat (cachedApi 0) (20 * Second)
        Response.getFailed).ret = some (pairs, none) ∧
      (∀ t s, ({ Trading := t, Settlement := s } : CurrencyPair) ∈ pairs ↔
        mapGet2 (CurrencyPairs sampleParseFloat (cachedApi 0) (20 * Second)
          Response.getFailed).api.rateMap t s ≠ none) ∧
      pairs.Nodup ∧
      pairs.length = entryCount (CurrencyPairs sampleParseFloat (cachedApi 0) (20 * Second)
        Response.getFailed).api.rateMap ∧
      ((CurrencyPairs sampleParseFloat (cachedApi 0) (20 * Second)
        Response.getFailed).api.rateMap = [] → pairs = [])) :=
  have hmap : IsMap2 (cachedApi 0).rateMap := by
    unfold IsMap2 IsMap mapKeys
    decide
  ⟨hmap, Or.inl (by decide), by decide,
    (C11_pairs_enumerate_rate_map sampleParseFloat (cachedApi 0) (20 * Second)
      Response.getFailed hmap (Or.inl (by decide))).2⟩

/-- The listing of C11 after a refresh on a ticker of three records, and on
an empty ticker. -/
theorem listing_examples :
    (CurrencyPairs sampleParseFloat (sampleApi ["USD", "BTC"]) (1700000000 * Second)
      (Response.children [tickerRecord "ETHBTC" "3" "4", tickerRecord "ETHUSD" "5" "6",
        tickerRecord "LTCUSD" "7" "8"])).ret
      = some ([{ Trading := "ETH".toList, Settlement := "BTC".toList },
               { Trading := "ETH".toList, Settlement := "USD".toList },
               { Trading := "LTC".toList, Settlement := "USD".toList }], none) ∧
    (CurrencyPairs sampleParseFloat (sampleApi ["USD", "BTC"]) (1700000000 * Second)
      (Response.children [])).ret = some ([], none) := by
  refine ⟨by decide, by decide⟩

end Hitbtc
